import Mathlib

/-!
Verification of the hybrid retrieval index (`rag_engine.py`): a shallow
embedding of the chunker, the BM25 lexical engine, reciprocal rank fusion,
the change detector and the `HybridIndex` aggregate, together with proofs
of the specified properties.

External collaborators (PDF/DOCX text extraction, the sentence-transformer
embedder, SHA-256) are abstracted as parameters: the index code never
inspects their output, it only passes it along.
-/

namespace RagEngine

/-- Configuration constants from `config.py`. -/
def CHUNK_SIZE : Nat := 400

/-- `config.CHUNK_OVERLAP`. -/
def CHUNK_OVERLAP : Nat := 50

/-- `config.SUPPORTED_EXTENSIONS`. -/
def SUPPORTED_EXTENSIONS : List String := [".pdf", ".docx"]

/-! ### Word splitting (Python `str.split()` with no argument) -/

/-- Split a character list at every character satisfying `p`, keeping the
(possibly empty) pieces between separators. -/
def splitChars (p : Char → Bool) : List Char → List (List Char)
  | [] => [[]]
  | c :: cs =>
    let r := splitChars p cs
    if p c then [] :: r
    else
      match r with
      | [] => [[c]]
      | w :: ws => (c :: w) :: ws

/-- Python `s.split()`: split on whitespace runs, dropping empty pieces. -/
def pySplit (s : String) : List String :=
  ((splitChars Char.isWhitespace s.toList).filter (· ≠ [])).map List.asString

/-- Python `" ".join(words)`, at the character level. -/
def spaceJoin (ws : List String) : String :=
  (List.intercalate [' '] (ws.map String.toList)).asString

/-- Python `s.strip()` is non-empty iff some character is not whitespace. -/
def stripNonempty (s : String) : Bool :=
  s.toList.any (fun c => !c.isWhitespace)

/-! ### Sentence splitting — the regex `(?<=[.!?])\s+` -/

/-- Is this character one of the sentence-ending punctuation marks `.`, `!`, `?`. -/
def isSentEnd (c : Char) : Bool :=
  c = '.' || c = '!' || c = '?'

/-- Core of the regex split `(?<=[.!?])\s+` over the character stream.
`acc` is the (reversed) current piece; `sep` is true while we are inside
a whitespace run that acts as a separator (one whose first character was
preceded by `.`, `!` or `?`). -/
def splitSentencesAux : List Char → List Char → Bool → List (List Char)
  | [], acc, sep => if sep then [[]] else [acc.reverse]
  | c :: cs, acc, sep =>
    if sep then
      if c.isWhitespace then splitSentencesAux cs acc true
      else splitSentencesAux cs [c] false
    else
      if (match acc with | a :: _ => isSentEnd a | [] => false) && c.isWhitespace then
        acc.reverse :: splitSentencesAux cs [] true
      else
        splitSentencesAux cs (c :: acc) false

/-- `_SENTENCE_RE.split(text)` for `_SENTENCE_RE = re.compile(r'(?<=[.!?])\s+')`. -/
def splitSentences (text : String) : List String :=
  (splitSentencesAux text.toList [] false).map List.asString

/-! ### The chunker — `chunk_text` -/

/-- The loop body state of `chunk_text`: finished chunks and the current
word accumulator. -/
def chunkStep (chunkSize overlap : Nat) (st : List String × List String)
    (sentence : String) : List String × List String :=
  if pySplit sentence = [] then st
  else if st.2.length + (pySplit sentence).length > chunkSize ∧ st.2 ≠ [] then
    -- flush, seed with `current_words[-overlap:] if overlap else []`,
    -- then extend with the sentence's words
    (st.1 ++ [spaceJoin st.2],
     (if overlap = 0 then [] else st.2.drop (st.2.length - overlap)) ++ pySplit sentence)
  else (st.1, st.2 ++ pySplit sentence)

/-- `chunk_text(text, chunk_size, overlap)` from `rag_engine.py`. -/
def chunkText (text : String) (chunkSize : Nat := CHUNK_SIZE)
    (overlap : Nat := CHUNK_OVERLAP) : List String :=
  let sentences := splitSentences text
  let (chunks, currentWords) :=
    sentences.foldl (chunkStep chunkSize overlap) ([], [])
  if currentWords ≠ [] then chunks ++ [spaceJoin currentWords] else chunks

/-- Word count of a chunk, as the spec counts words (`str.split()`). -/
def wordCount (s : String) : Nat := (pySplit s).length

/-- The largest word count of a single sentence of `text`. -/
def maxSentenceWords (text : String) : Nat :=
  ((splitSentences text).map wordCount).foldr max 0

/-! ### A stable insertion sort modelling Python `sorted` -/

/-- Insert `x` before the first element `y` with `le x y`; used by `insSort`. -/
def insertLe (le : α → α → Bool) (x : α) : List α → List α
  | [] => [x]
  | y :: ys => if le x y then x :: y :: ys else y :: insertLe le x ys

/-- Stable sort with respect to the (total) boolean comparison `le`;
models Python's stable `sorted`. -/
def insSort (le : α → α → Bool) : List α → List α
  | [] => []
  | x :: xs => insertLe le x (insSort le xs)

/-- Code-point lexicographic order on strings: Python `str` comparison. -/
def lexLe : List Char → List Char → Bool
  | [], _ => true
  | _ :: _, [] => false
  | c :: cs, d :: ds =>
    if c.toNat < d.toNat then true
    else if d.toNat < c.toNat then false
    else lexLe cs ds

/-- Python string `<=`, used by `sorted` on filenames. -/
def strLe (s t : String) : Bool := lexLe s.toList t.toList

/-! ### BM25 — tokenizer and model (`_tokenize`, `class BM25`) -/

/-- A `\w` word character (Unicode word constituent, modelled as
alphanumeric or underscore). -/
def isWordChar (c : Char) : Bool := c.isAlphanum || c = '_'

/-- `_tokenize(text)`: `\w+` matches over the lower-cased text. -/
def tokenize (text : String) : List String :=
  ((splitChars (fun c => !isWordChar c) (text.toList.map Char.toLower)).filter
    (· ≠ [])).map List.asString

/-- The state of a `BM25` instance.  A `Counter` over a document's tokens is
represented by the token list itself (`tf`); `_doc_freqs` and `_avg_dl` are
recovered from the fitted token lists by `docFreq` and `bm25AvgDl`. -/
structure BM25State where
  k1 : ℚ
  b : ℚ
  tf : List (List String)
  docLens : List Nat
  nDocs : Nat
deriving DecidableEq, Repr

/-- `BM25()` with the default hyperparameters `k1 = 1.5`, `b = 0.75`. -/
def bm25Init : BM25State :=
  { k1 := 3/2, b := 3/4, tf := [], docLens := [], nDocs := 0 }

/-- `BM25.fit(texts)`: tokenize every text, record per-document token
multisets, document lengths and the document count. -/
def bm25FitSt (st : BM25State) (texts : List String) : BM25State :=
  let toks := texts.map tokenize
  { st with tf := toks, docLens := toks.map List.length, nDocs := texts.length }

/-- `BM25().fit(texts)` — a freshly constructed engine fitted on `texts`,
as `HybridIndex` uses it. -/
def bm25Fit (texts : List String) : BM25State :=
  bm25FitSt bm25Init texts

/-- `self._doc_freqs[term]` of a fitted model: the number of fitted texts
containing `term` (0 when the term is absent from the dictionary). -/
def docFreq (st : BM25State) (term : String) : Nat :=
  (st.tf.filter (fun d => term ∈ d)).length

/-- `self._avg_dl = sum(self._doc_lens) / max(self._n_docs, 1)`. -/
def bm25AvgDl (st : BM25State) : ℚ :=
  (st.docLens.sum : ℚ) / max st.nDocs 1

/-- `tf[term]` for document `i`: the term's multiplicity in document `i`. -/
def tfCount (st : BM25State) (i : Nat) (term : String) : Nat :=
  (st.tf.getD i []).count term

/-- `idf = math.log((self._n_docs - df + 0.5) / (df + 0.5) + 1.0)`. -/
noncomputable def bm25Idf (st : BM25State) (term : String) : ℝ :=
  Real.log (((st.nDocs : ℝ) - docFreq st term + 1/2) / (docFreq st term + 1/2) + 1)

/-- The scoring denominator
`freq + self.k1 * (1 - self.b + self.b * dl / self._avg_dl)`. -/
noncomputable def scoringDenominator (st : BM25State) (i : Nat) (term : String) : ℝ :=
  (tfCount st i term : ℝ) +
    (st.k1 : ℝ) * (1 - (st.b : ℝ) + (st.b : ℝ) * (st.docLens.getD i 0 : ℝ) / (bm25AvgDl st : ℝ))

/-- One iteration of the outer scoring loop of `BM25.search`: add `term`'s
contribution to every document's accumulated score. -/
noncomputable def addTermScores (st : BM25State) (scores : List ℝ) (term : String) :
    List ℝ :=
  if docFreq st term = 0 then scores
  else
    scores.mapIdx fun i s =>
      if tfCount st i term = 0 then s
      else
        s + bm25Idf st term * ((tfCount st i term : ℝ) * ((st.k1 : ℝ) + 1)) /
          scoringDenominator st i term

/-- The `scores` list of `BM25.search` after the scoring loops. -/
noncomputable def bm25ScoresList (st : BM25State) (query : String) : List ℝ :=
  (tokenize query).foldl (addTermScores st) (List.replicate st.nDocs 0)

/-- `BM25.search(query, top_k)`: rank all documents by descending score,
keep the first `top_k`, drop non-positive scores. -/
noncomputable def bm25Search (st : BM25State) (query : String) (topK : Nat) :
    List (Nat × ℝ) :=
  let ranked := insSort (fun a b : Nat × ℝ => decide (b.2 ≤ a.2))
    (bm25ScoresList st query).enum
  (ranked.take topK).filter fun p => decide (0 < p.2)

/-- The score the specification assigns to document `i` for one query term:
zero for terms absent from the fitted vocabulary, otherwise the Okapi BM25
term `idf(t) * tf(t,d) * (k1+1) / (tf(t,d) + k1 * (1 - b + b * |d| / avgdl))`. -/
noncomputable def bm25SpecTermScore (st : BM25State) (term : String) (i : Nat) : ℝ :=
  if docFreq st term = 0 then 0
  else
    bm25Idf st term * ((tfCount st i term : ℝ) * ((st.k1 : ℝ) + 1)) /
      scoringDenominator st i term

/-- The specification's chunk score: the sum of the per-term scores over the
query's token sequence. -/
noncomputable def bm25SpecScore (st : BM25State) (query : String) (i : Nat) : ℝ :=
  ((tokenize query).map fun t => bm25SpecTermScore st t i).sum

/-! ### Reciprocal Rank Fusion — `rrf_fuse` -/

/-- `scores[doc_id] = scores.get(doc_id, 0.0) + v` on an insertion-ordered
dictionary represented as an association list. -/
def rrfDictAdd (scores : List (Nat × ℚ)) (docId : Nat) (v : ℚ) : List (Nat × ℚ) :=
  match scores with
  | [] => [(docId, v)]
  | (d, s) :: rest =>
    if d = docId then (d, s + v) :: rest else (d, s) :: rrfDictAdd rest docId v

/-- The inner loop of `rrf_fuse`: fold one ranked list into the score
dictionary, adding `1 / (k + rank + 1)` per item. -/
def rrfAddList (k : Nat) (scores : List (Nat × ℚ)) (ranked : List (Nat × α)) :
    List (Nat × ℚ) :=
  ranked.enum.foldl (fun sc rankItem => rrfDictAdd sc rankItem.2.1 (1 / (k + rankItem.1 + 1))) scores

/-- `rrf_fuse(ranked_lists, k=60)`: accumulate reciprocal-rank scores per
chunk position, then order by descending fused score.  The input scores are
ignored, hence the generic payload type. -/
def rrfFuse (rankedLists : List (List (Nat × α))) (k : Nat := 60) : List (Nat × ℚ) :=
  insSort (fun a b => decide (b.2 ≤ a.2)) (rankedLists.foldl (rrfAddList k) [])

/-- The fused score the specification assigns to chunk position `p`: for
each list, each occurrence of `p` at 0-based rank `r` contributes
`1 / (k + r + 1)`; absence from a list contributes nothing. -/
def rrfSpecScore (rankedLists : List (List (Nat × α))) (k : Nat) (p : Nat) : ℚ :=
  (rankedLists.map fun l =>
    ((l.enum.filter fun rc => rc.2.1 = p).map fun rc => (1 : ℚ) / (k + rc.1 + 1)).sum).sum

/-! ### Files, hashing and document loading -/

/-- A file of the source directory: its name and raw bytes. -/
structure SrcFile where
  name : String
  bytes : String
deriving DecidableEq, Repr

/-- `pathlib.Path(name).suffix`: the substring from the last `.` of the
final component, when that dot is neither leading nor trailing. -/
def suffixOf (name : String) : String :=
  let cs := name.toList
  match cs.reverse.findIdx? (· = '.') with
  | none => ""
  | some j =>
    let i := cs.length - 1 - j
    if 0 < i ∧ i < cs.length - 1 then (cs.drop i).asString else ""

/-- `path.suffix.lower()`. -/
def extLower (name : String) : String :=
  ((suffixOf name).toList.map Char.toLower).asString

/-- Membership of the lower-cased extension in `config.SUPPORTED_EXTENSIONS`. -/
def isSupported (name : String) : Bool :=
  SUPPORTED_EXTENSIONS.contains (extLower name)

/-- `sorted(folder.iterdir())` — directory entries in code-point order. -/
def sortByName (d : List SrcFile) : List SrcFile :=
  insSort (fun f g => strLe f.name g.name) d

/-- Did the call return normally (no exception propagated)? -/
def exceptIsOk : Except ε α → Bool
  | .ok _ => true
  | .error _ => false

section IndexModel

variable {E : Type} (embed : String → E) (hashFn : String → String)
variable (parsePdf parseDocx : String → String)

/-- `load_document(path)`: dispatch on the lower-cased extension, raising
`ValueError` on anything unsupported.  The PDF and DOCX text extractors are
external collaborators, abstracted as `parsePdf`/`parseDocx`. -/
def loadDocument (f : SrcFile) : Except String String :=
  let ext := extLower f.name
  if ext = ".pdf" then .ok (parsePdf f.bytes)
  else if ext = ".docx" then .ok (parseDocx f.bytes)
  else .error ("Unsupported file type: " ++ ext)

/-- One `{"filename": ..., "text": ...}` record of `load_documents`. -/
structure DocRec where
  filename : String
  text : String
deriving DecidableEq, Repr

/-- `load_documents(folder)`: iterate the sorted directory, keep supported
files whose extracted text is non-blank. -/
def loadDocuments (d : List SrcFile) : Except String (List DocRec) :=
  (sortByName d).foldlM
    (fun docs f =>
      if isSupported f.name then do
        let text ← loadDocument parsePdf parseDocx f
        pure (if stripNonempty text then docs ++ [⟨f.name, text⟩] else docs)
      else pure docs)
    []

/-- `compute_file_hashes(docs_dir)`: content digest of every supported file,
keyed by filename, in sorted directory order.  SHA-256 is abstracted as
`hashFn`. -/
def computeFileHashes (d : List SrcFile) : List (String × String) :=
  ((sortByName d).filter (fun f => isSupported f.name)).map
    (fun f => (f.name, hashFn f.bytes))

/-! ### The `HybridIndex` aggregate -/

/-- One chunk record `{text, filename, chunk_idx}`. -/
structure Chunk where
  text : String
  filename : String
  chunk_idx : Nat
deriving DecidableEq, Repr

/-- One manifest entry `{hash, chunk_start, chunk_end}`. -/
structure ManEntry where
  hash : String
  chunk_start : Nat
  chunk_end : Nat
deriving DecidableEq, Repr

/-- The in-memory state of a `HybridIndex`.  `embeddings` is the embedding
matrix as a list of rows (`None` and the empty matrix are both the empty
list); the manifest dictionary is an insertion-ordered association list. -/
structure IndexState (E : Type) where
  chunks : List Chunk
  embeddings : List E
  manifest : List (String × ManEntry)
  bm25 : BM25State
deriving DecidableEq

/-- `HybridIndex()`. -/
def emptyIndex : IndexState E :=
  { chunks := [], embeddings := [], manifest := [], bm25 := bm25Init }

/-- First-match lookup in an association list (Python dictionary read). -/
def lookupFst [DecidableEq κ] (m : List (κ × β)) (k : κ) : Option β :=
  match m with
  | [] => none
  | (k', v) :: rest => if k' = k then some v else lookupFst rest k

/-- The key list of an association list. -/
def keysOf (m : List (κ × β)) : List κ := m.map (·.1)

/-- Python dictionary assignment `m[k] = v`: replace in place, or append. -/
def dictSet [DecidableEq κ] (m : List (κ × β)) (k : κ) (v : β) : List (κ × β) :=
  match m with
  | [] => [(k, v)]
  | (k', v') :: rest =>
    if k' = k then (k, v) :: rest else (k', v') :: dictSet rest k v

/-- The per-document loop body of `build`: append the document's chunks at
the end of the global sequence and record its manifest entry with its
current content hash (empty string when the hash dictionary misses). -/
def buildStep (d : List SrcFile) (acc : List Chunk × List (String × ManEntry))
    (doc : DocRec) : List Chunk × List (String × ManEntry) :=
  let textChunks := chunkText doc.text
  let start := acc.1.length
  let chunks := acc.1 ++ textChunks.mapIdx (fun i c => ⟨c, doc.filename, i⟩)
  let stop := chunks.length
  (chunks,
   dictSet acc.2 doc.filename
     ⟨(lookupFst (computeFileHashes hashFn d) doc.filename).getD "", start, stop⟩)

/-- `HybridIndex.build(docs_dir)`: full rebuild — load every supported
document, chunk it, record its manifest range, embed the complete chunk
text list in one batch and refit BM25. -/
def build (s : IndexState E) (d : List SrcFile) : Except String (IndexState E) := do
  let docs ← loadDocuments parsePdf parseDocx d
  let (chunks, manifest) := docs.foldl (buildStep hashFn d) ([], [])
  let texts := chunks.map (·.text)
  pure { chunks := chunks, embeddings := texts.map embed, manifest := manifest,
         bm25 := bm25FitSt s.bm25 texts }

/-- `HybridIndex.needs_reindex(docs_dir)`: diff the stored manifest against
the current file hashes.  Returns `(needs, added, changed, removed)`. -/
def needsReindex (s : IndexState E) (d : List SrcFile) :
    Bool × List String × List String × List String :=
  let current := computeFileHashes hashFn d
  let oldFiles := keysOf s.manifest
  let newFiles := keysOf current
  let added := insSort strLe ((newFiles.dedup).filter fun f => decide (f ∉ oldFiles))
  let removed := insSort strLe ((oldFiles.dedup).filter fun f => decide (f ∉ newFiles))
  let changed := insSort strLe ((oldFiles.dedup).filter fun f =>
    decide (f ∈ newFiles) &&
      decide (lookupFst current f ≠ (lookupFst s.manifest f).map ManEntry.hash))
  let needs := !(added.isEmpty && removed.isEmpty && changed.isEmpty)
  (needs, added, changed, removed)

/-- `needs_reindex` as a state transformer, pairing the (unchanged) index
state the method leaves behind with the value it returns: the method body
only reads `self.manifest` and the directory, it assigns no attribute. -/
def needsReindexSt (s : IndexState E) (d : List SrcFile) :
    IndexState E × (Bool × List String × List String × List String) :=
  (s, needsReindex hashFn s d)

/-- The ranges dictionary of `_rebuild_manifest_ranges`, one scan step:
first occurrence of a filename opens `[i, i+1)`, later occurrences extend
the right end to `i + 1`. -/
def updateRange (acc : List (String × Nat × Nat)) (fname : String) (i : Nat) :
    List (String × Nat × Nat) :=
  match acc with
  | [] => [(fname, i, i + 1)]
  | (f, se) :: rest =>
    if f = fname then (f, se.1, i + 1) :: rest else (f, se) :: updateRange rest fname i

/-- The scan of `_rebuild_manifest_ranges` over the enumerated chunk list. -/
def rangesAux : List Chunk → Nat → List (String × Nat × Nat) → List (String × Nat × Nat)
  | [], _, acc => acc
  | c :: cs, i, acc => rangesAux cs (i + 1) (updateRange acc c.filename i)

/-- The filename → `[first, last+1)` ranges of a chunk list. -/
def chunkRanges (chunks : List Chunk) : List (String × Nat × Nat) :=
  rangesAux chunks 0 []

/-- `HybridIndex._rebuild_manifest_ranges()`: write the scanned ranges back
into the manifest entries of filenames that own chunks. -/
def rebuildManifestRanges (chunks : List Chunk)
    (manifest : List (String × ManEntry)) : List (String × ManEntry) :=
  manifest.map fun p =>
    match lookupFst (chunkRanges chunks) p.1 with
    | some se => (p.1, { p.2 with chunk_start := se.1, chunk_end := se.2 })
    | none => p

/-- The removal phase of `reindex`: drop every chunk (and its aligned
embedding row) whose filename is in `files_to_remove`, and pop their
manifest entries. -/
def reindexRemove (s : IndexState E) (filesToRemove : List String) : IndexState E :=
  if filesToRemove.isEmpty then s
  else
    let keepIndices :=
      (s.chunks.enum.filter fun ic => !(filesToRemove.contains ic.2.filename)).map (·.1)
    { s with
      chunks := keepIndices.filterMap (s.chunks.get? ·),
      embeddings := keepIndices.filterMap (s.embeddings.get? ·),
      manifest := s.manifest.filter fun p => !(filesToRemove.contains p.1) }

/-- `docs_dir / fname` followed by `load_document`: load the named file
from the directory (opening a missing path raises). -/
def loadForReindex (d : List SrcFile) (fname : String) : Except String String :=
  match d.find? (fun f => f.name = fname) with
  | some f => loadDocument parsePdf parseDocx f
  | none => Except.error ("FileNotFoundError: " ++ fname)

/-- One iteration of the addition loop of `reindex` over `sorted(files_to_add)`:
load and chunk the file, append its chunks at the end of the global
sequence, record a fresh manifest entry, and collect the new chunk texts. -/
def reindexAddStep (d : List SrcFile)
    (acc : List Chunk × List (String × ManEntry) × List String) (fname : String) :
    Except String (List Chunk × List (String × ManEntry) × List String) := do
  let text ← loadForReindex parsePdf parseDocx d fname
  let h ← match lookupFst (computeFileHashes hashFn d) fname with
    | some h => pure h
    | none => Except.error ("KeyError: " ++ fname)
  let textChunks := chunkText text
  let start := acc.1.length
  let chunks := acc.1 ++ textChunks.mapIdx (fun i c => ⟨c, fname, i⟩)
  let stop := chunks.length
  pure (chunks, dictSet acc.2.1 fname ⟨h, start, stop⟩, acc.2.2 ++ textChunks)

/-- The addition phase of `reindex`: for each filename (in sorted order),
load and chunk the file, append its chunks at the end of the global
sequence and record a fresh manifest entry; finally append the embeddings
of all newly collected chunk texts. -/
def reindexAdd (s : IndexState E) (d : List SrcFile) (filesToAdd : List String) :
    Except String (IndexState E) := do
  if filesToAdd.isEmpty then pure s
  else
    let (chunks, manifest, newTexts) ←
      filesToAdd.foldlM (reindexAddStep hashFn parsePdf parseDocx d)
        (s.chunks, s.manifest, [])
    pure { s with
      chunks := chunks, manifest := manifest,
      -- `np.vstack` on a non-empty matrix, plain assignment otherwise:
      -- both are list append under the row-list representation
      embeddings := s.embeddings ++ newTexts.map embed }

/-- `HybridIndex.reindex(docs_dir)`: no-op when nothing changed, otherwise
remove stale chunks, add chunks of new/changed files, refit BM25 over the
whole chunk text sequence and rebuild every manifest range. -/
def reindex (s : IndexState E) (d : List SrcFile) : Except String (IndexState E) := do
  let (needs, added, changed, removed) := needsReindex hashFn s d
  if !needs then pure s
  else
    let filesToRemove := (removed ++ changed).dedup
    let filesToAdd := insSort strLe ((added ++ changed).dedup)
    let s1 := reindexRemove s filesToRemove
    let s2 ← reindexAdd embed hashFn parsePdf parseDocx s1 d filesToAdd
    let texts := s2.chunks.map (·.text)
    pure { s2 with
      bm25 := bm25FitSt s2.bm25 texts,
      manifest := rebuildManifestRanges s2.chunks s2.manifest }

/-- The persisted artifacts: `manifest.json`, `chunks.json`,
`embeddings.npy`. -/
structure SavedIndex (E : Type) where
  manifest : List (String × ManEntry)
  chunks : List Chunk
  embeddings : List E
deriving DecidableEq

/-- `HybridIndex.save()`. -/
def saveIndex (s : IndexState E) : SavedIndex E :=
  ⟨s.manifest, s.chunks, s.embeddings⟩

/-- `HybridIndex.load()` on a present, complete index directory: restore
the three artifacts and refit BM25 from the restored chunk texts (only
when there are chunks — otherwise the fresh `BM25()` of `HybridIndex()`
remains). -/
def loadIndex (a : SavedIndex E) : IndexState E :=
  { chunks := a.chunks, embeddings := a.embeddings, manifest := a.manifest,
    bm25 :=
      if a.chunks.isEmpty then (emptyIndex : IndexState E).bm25
      else bm25FitSt (emptyIndex : IndexState E).bm25 (a.chunks.map (·.text)) }

/-- The BM25 engine's derived statistics are exactly those of a model
fitted over `texts` (the hyperparameters `k1`/`b` are configuration, not
fitted state). -/
def bm25FittedOn (st : BM25State) (texts : List String) : Prop :=
  st.tf = texts.map tokenize ∧
    st.docLens = (texts.map tokenize).map List.length ∧
    st.nDocs = texts.length

/-- The central alignment invariant of the index store: the embedding
matrix has exactly one row per chunk with row `i` the embedding of chunk
`i`'s text, and the BM25 model is fitted over the chunk texts in
chunk-list order.  An empty index is the empty chunk list with no rows. -/
def indexAligned (s : IndexState E) : Prop :=
  s.embeddings = s.chunks.map (fun c => embed c.text) ∧
    bm25FittedOn s.bm25 (s.chunks.map (·.text))

/-- The interval list `_rebuild_manifest_ranges` computes over a chunk
list that decomposes into consecutive same-filename blocks: block `k`
owns the half-open index range starting where block `k-1` ended. -/
def blockIntervals : List (String × List Chunk) → Nat → List (String × Nat × Nat)
  | [], _ => []
  | b :: bs, i => (b.1, i, i + b.2.length) :: blockIntervals bs (i + b.2.length)

/-- A chunk list is grouped when it splits into non-empty blocks of
consecutive chunks, each block holding chunks of exactly one filename and
no filename owning two blocks — the shape `build` and `reindex` always
produce. -/
def ChunksGrouped (chunks : List Chunk) : Prop :=
  ∃ blocks : List (String × List Chunk),
    (blocks.map Prod.fst).Nodup ∧
    (∀ b ∈ blocks, b.2 ≠ [] ∧ ∀ c ∈ b.2, c.filename = b.1) ∧
    chunks = blocks.flatMap Prod.snd

end IndexModel

/-! ## Lemmas about the generic helpers -/

theorem toList_asString (l : List Char) : (List.asString l).toList = l := rfl

theorem asString_toList (s : String) : (s.toList).asString = s := by
  cases s
  rfl

theorem insertLe_perm (le : α → α → Bool) (x : α) :
    ∀ l : List α, (insertLe le x l).Perm (x :: l)
  | [] => List.Perm.refl _
  | y :: ys => by
    unfold insertLe
    by_cases h : le x y = true
    · simp [h]
    · rw [if_neg h]
      refine List.Perm.trans (List.Perm.cons y (insertLe_perm le x ys)) ?_
      exact List.Perm.swap x y ys

theorem insSort_perm (le : α → α → Bool) : ∀ l : List α, (insSort le l).Perm l
  | [] => List.Perm.refl _
  | x :: xs =>
    List.Perm.trans (insertLe_perm le x (insSort le xs))
      (List.Perm.cons x (insSort_perm le xs))

theorem mem_insSort (le : α → α → Bool) (l : List α) (a : α) :
    a ∈ insSort le l ↔ a ∈ l :=
  (insSort_perm le l).mem_iff

theorem insSort_nodup (le : α → α → Bool) (l : List α) (h : l.Nodup) :
    (insSort le l).Nodup :=
  (insSort_perm le l).nodup_iff.mpr h

theorem mem_insertLe (le : α → α → Bool) (x : α) (l : List α) (a : α) :
    a ∈ insertLe le x l ↔ a = x ∨ a ∈ l := by
  rw [(insertLe_perm le x l).mem_iff, List.mem_cons]

theorem insertLe_pairwise (le : α → α → Bool)
    (htot : ∀ a b, le a b = true ∨ le b a = true)
    (htrans : ∀ a b c, le a b = true → le b c = true → le a c = true)
    (x : α) : ∀ l : List α, l.Pairwise (fun a b => le a b = true) →
      (insertLe le x l).Pairwise (fun a b => le a b = true)
  | [], _ => by simp [insertLe]
  | y :: ys, h => by
    rcases List.pairwise_cons.mp h with ⟨hy, hys⟩
    unfold insertLe
    by_cases hxy : le x y = true
    · simp only [hxy, if_pos]
      refine List.pairwise_cons.mpr ⟨?_, h⟩
      intro b hb
      rcases List.mem_cons.mp hb with rfl | hb
      · exact hxy
      · exact htrans x y b hxy (hy b hb)
    · simp only [hxy, if_neg, not_false_iff]
      refine List.pairwise_cons.mpr ⟨?_, insertLe_pairwise le htot htrans x ys hys⟩
      intro b hb
      rcases (mem_insertLe le x ys b).mp hb with rfl | hb
      · rcases htot b y with hby | hyb
        · exact absurd hby hxy
        · exact hyb
      · exact hy b hb

theorem insSort_pairwise (le : α → α → Bool)
    (htot : ∀ a b, le a b = true ∨ le b a = true)
    (htrans : ∀ a b c, le a b = true → le b c = true → le a c = true) :
    ∀ l : List α, (insSort le l).Pairwise (fun a b => le a b = true)
  | [] => List.Pairwise.nil
  | x :: xs =>
    insertLe_pairwise le htot htrans x (insSort le xs)
      (insSort_pairwise le htot htrans xs)

/-- In a list sorted by `le`, the head is `le`-below any member. -/
theorem head_le_of_pairwise (le : α → α → Bool) (l : List α)
    (hl : l.Pairwise (fun a b => le a b = true)) (y : α) (hy : l.head? = some y)
    (x : α) (hx : x ∈ l) : x = y ∨ le y x = true := by
  cases l with
  | nil => cases hx
  | cons z zs =>
    cases hy
    rcases List.mem_cons.mp hx with rfl | hx
    · exact Or.inl rfl
    · exact Or.inr ((List.pairwise_cons.mp hl).1 x hx)

theorem splitChars_ne_nil (p : Char → Bool) : ∀ l : List Char, splitChars p l ≠ []
  | [] => by simp [splitChars]
  | c :: cs => by
    unfold splitChars
    by_cases h : p c = true
    · simp [h]
    · simp only [h]
      cases hr : splitChars p cs with
      | nil => simp
      | cons w ws => simp

theorem splitChars_piece_no_sep (p : Char → Bool) :
    ∀ l : List Char, ∀ w ∈ splitChars p l, ∀ c ∈ w, p c = false
  | [], w, hw, c, hc => by
    simp only [splitChars, List.mem_singleton] at hw
    subst hw
    cases hc
  | a :: as, w, hw, c, hc => by
    unfold splitChars at hw
    by_cases h : p a = true
    · simp only [h, if_pos, List.mem_cons] at hw
      rcases hw with rfl | hw
      · cases hc
      · exact splitChars_piece_no_sep p as w hw c hc
    · simp only [h, if_neg, not_false_iff] at hw
      cases hr : splitChars p as with
      | nil => exact absurd hr (splitChars_ne_nil p as)
      | cons v vs =>
        rw [hr] at hw
        rcases List.mem_cons.mp hw with rfl | hw
        · rcases List.mem_cons.mp hc with rfl | hc
          · simpa using h
          · exact splitChars_piece_no_sep p as v (hr ▸ List.mem_cons_self v vs) c hc
        · exact splitChars_piece_no_sep p as w (hr ▸ List.mem_cons_of_mem v hw) c hc

theorem splitChars_cons_sep (p : Char → Bool) (c : Char) (l : List Char)
    (h : p c = true) : splitChars p (c :: l) = [] :: splitChars p l := by
  simp only [splitChars, h, if_true]

theorem splitChars_prepend (p : Char → Bool) :
    ∀ xs : List Char, (∀ x ∈ xs, p x = false) → ∀ l : List Char,
      splitChars p (xs ++ l) =
        (xs ++ (splitChars p l).headI) :: (splitChars p l).tail
  | [], _, l => by
    cases hr : splitChars p l with
    | nil => exact absurd hr (splitChars_ne_nil p l)
    | cons w ws => rw [List.nil_append, hr]; simp
  | x :: xs, hxs, l => by
    have hx : p x = false := hxs x (List.mem_cons_self x xs)
    have ih := splitChars_prepend p xs (fun y hy => hxs y (List.mem_cons_of_mem x hy)) l
    rw [List.cons_append]
    simp only [splitChars, hx, Bool.false_eq_true, if_false, ih]
    simp

theorem intercalate_nil_eq (sep : List α) : List.intercalate sep [] = [] := rfl

theorem intercalate_single (sep : List α) (x : List α) :
    List.intercalate sep [x] = x := by
  simp [List.intercalate]

theorem intercalate_cons_two (sep x y : List α) (l : List (List α)) :
    List.intercalate sep (x :: y :: l) = x ++ sep ++ List.intercalate sep (y :: l) := by
  simp [List.intercalate]

theorem le_foldr_max {l : List Nat} {x b : Nat} (h : x ∈ l) : x ≤ l.foldr max b := by
  induction l with
  | nil => cases h
  | cons y ys ih =>
    rcases List.mem_cons.mp h with rfl | h
    · exact le_max_left _ _
    · exact le_trans (ih h) (le_max_right _ _)

/-! ## Lemmas about the chunker -/

/-- A word as produced by `str.split()`: non-empty and whitespace-free. -/
def CleanWord (w : String) : Prop :=
  w.toList ≠ [] ∧ ∀ c ∈ w.toList, c.isWhitespace = false

theorem mem_pySplit (s : String) (w : String) (hw : w ∈ pySplit s) : CleanWord w := by
  unfold pySplit at hw
  rcases List.mem_map.mp hw with ⟨piece, hpiece, rfl⟩
  rcases List.mem_filter.mp hpiece with ⟨hmem, hne⟩
  refine ⟨?_, ?_⟩
  · rw [toList_asString]
    simpa using hne
  · rw [toList_asString]
    exact splitChars_piece_no_sep _ _ piece hmem

theorem pySplit_spaceJoin :
    ∀ ws : List String, (∀ w ∈ ws, CleanWord w) → pySplit (spaceJoin ws) = ws
  | [], _ => rfl
  | [w], h => by
    have hw := h w (List.mem_singleton_self w)
    unfold pySplit spaceJoin
    rw [toList_asString, List.map_singleton, intercalate_single,
      ← List.append_nil w.toList, splitChars_prepend _ _ hw.2,
      show splitChars Char.isWhitespace [] = [[]] from rfl]
    simp only [List.headI, List.tail, List.append_nil, List.filter_cons,
      List.filter_nil]
    rw [if_pos (by simpa using hw.1), List.map_singleton, asString_toList]
  | w :: v :: rest, h => by
    have hw := h w (List.mem_cons_self w _)
    have ih := pySplit_spaceJoin (v :: rest)
      (fun u hu => h u (List.mem_cons_of_mem w hu))
    unfold pySplit spaceJoin
    rw [toList_asString, List.map_cons, List.map_cons, intercalate_cons_two,
      List.append_assoc, splitChars_prepend _ _ hw.2, List.singleton_append,
      splitChars_cons_sep _ _ _ (by decide : (' ').isWhitespace = true)]
    simp only [List.headI, List.tail, List.append_nil, List.filter_cons]
    rw [if_pos (by simpa using hw.1)]
    unfold pySplit spaceJoin at ih
    rw [toList_asString] at ih
    simp only [List.map_cons] at ih ⊢
    rw [asString_toList, ih]

/-- The loop invariant of `chunk_text`: chunks so far are bounded by
`max S (O + L)`, the accumulator holds at most `max S (O + L)` clean words. -/
def ChunkInv (S O L : Nat) (st : List String × List String) : Prop :=
  (∀ c ∈ st.1, wordCount c ≤ max S (O + L)) ∧
    st.2.length ≤ max S (O + L) ∧ ∀ w ∈ st.2, CleanWord w

theorem wordCount_spaceJoin (ws : List String) (h : ∀ w ∈ ws, CleanWord w) :
    wordCount (spaceJoin ws) = ws.length := by
  unfold wordCount
  rw [pySplit_spaceJoin ws h]

theorem chunkStep_inv (S O L : Nat) (s : String)
    (hs : (pySplit s).length ≤ L) (st : List String × List String)
    (h : ChunkInv S O L st) : ChunkInv S O L (chunkStep S O st s) := by
  obtain ⟨chunks, cur⟩ := st
  obtain ⟨hchunks, hlen, hclean⟩ := h
  unfold chunkStep
  dsimp only at hchunks hlen hclean ⊢
  by_cases hw : pySplit s = []
  · rw [if_pos hw]
    exact ⟨hchunks, hlen, hclean⟩
  · rw [if_neg hw]
    by_cases hb : cur.length + (pySplit s).length > S ∧ cur ≠ []
    · rw [if_pos hb]
      refine ⟨?_, ?_, ?_⟩
      · intro c hc
        rcases List.mem_append.mp hc with hc | hc
        · exact hchunks c hc
        · rw [List.mem_singleton.mp hc, wordCount_spaceJoin cur hclean]
          exact hlen
      · dsimp only
        rw [List.length_append]
        have hcur0 : (if O = 0 then [] else cur.drop (cur.length - O)).length ≤ O := by
          by_cases hO : O = 0
          · simp [hO]
          · rw [if_neg hO, List.length_drop]
            omega
        calc (if O = 0 then [] else cur.drop (cur.length - O)).length
              + (pySplit s).length ≤ O + L := Nat.add_le_add hcur0 hs
          _ ≤ max S (O + L) := le_max_right _ _
      · intro w hw'
        rcases List.mem_append.mp hw' with hw' | hw'
        · by_cases hO : O = 0
          · rw [if_pos hO] at hw'
            cases hw'
          · rw [if_neg hO] at hw'
            exact hclean w (List.mem_of_mem_drop hw')
        · exact mem_pySplit s w hw'
    · rw [if_neg hb]
      refine ⟨hchunks, ?_, ?_⟩
      · dsimp only
        rw [List.length_append]
        by_cases hcur : cur = []
        · subst hcur
          simp only [List.length_nil, Nat.zero_add]
          exact le_trans hs (le_trans (Nat.le_add_left L O) (le_max_right _ _))
        · have hle : cur.length + (pySplit s).length ≤ S := by
            rcases Nat.lt_or_ge S (cur.length + (pySplit s).length) with hgt | hge
            · exact absurd ⟨hgt, hcur⟩ hb
            · exact hge
          exact le_trans hle (le_max_left _ _)
      · intro w hw'
        rcases List.mem_append.mp hw' with hw' | hw'
        · exact hclean w hw'
        · exact mem_pySplit s w hw'

theorem chunkFold_inv (S O L : Nat) :
    ∀ (sentences : List String), (∀ s ∈ sentences, (pySplit s).length ≤ L) →
      ∀ st, ChunkInv S O L st →
        ChunkInv S O L (sentences.foldl (chunkStep S O) st)
  | [], _, st, h => h
  | s :: rest, hs, st, h => by
    rw [List.foldl_cons]
    exact chunkFold_inv S O L rest
      (fun u hu => hs u (List.mem_cons_of_mem s hu))
      (chunkStep S O st s)
      (chunkStep_inv S O L s (hs s (List.mem_cons_self s rest)) st h)

/-! ## Claim C2 — chunker size bound -/

/-- C2, counterexample: with `chunk_size = 10` and `overlap = 5`, the text
`"a a a a a a a a a a. b b b b b b b b. c"` has no sentence of more than 10
words, yet `chunk_text` emits a 13-word chunk (5 overlap words carried from
the previous chunk plus an 8-word sentence).  The claimed bound "at most S
unless a single sentence alone exceeds S" is therefore false. -/
theorem chunk_size_bound_refuted :
    ((splitSentences "a a a a a a a a a a. b b b b b b b b. c").all
        fun s => decide (wordCount s ≤ 10)) = true ∧
      ((chunkText "a a a a a a a a a a. b b b b b b b b. c" 10 5).all
        fun c => decide (wordCount c ≤ 10)) = false := by
  constructor
  · decide
  · decide

/-- C2, amended: every chunk produced by `chunk_text(text, S, O)` has word
count at most `max S (O + L)`, where `L` is the largest word count of a
single sentence of the text; in particular a chunk can exceed `S` only when
the carried overlap plus one sentence exceeds `S` (an oversized sentence is
still appended whole, and only forces a flush on the next addition). -/
theorem chunk_size_bound (text : String) (S O : Nat) (c : String)
    (hc : c ∈ chunkText text S O) :
    wordCount c ≤ max S (O + maxSentenceWords text) := by
  have hinv := chunkFold_inv S O (maxSentenceWords text) (splitSentences text)
    (fun s hs => le_foldr_max (List.mem_map_of_mem wordCount hs)) ([], [])
    ⟨fun c hc => absurd hc (List.not_mem_nil c), Nat.zero_le _,
      fun w hw => absurd hw (List.not_mem_nil w)⟩
  unfold chunkText at hc
  simp only [] at hc
  rcases hr : (splitSentences text).foldl (chunkStep S O) ([], []) with ⟨chunks, cur⟩
  rw [hr] at hc hinv
  obtain ⟨hch, hlen, hclean⟩ := hinv
  dsimp only at hc hch hlen hclean
  by_cases hcur : cur ≠ []
  · rw [if_pos hcur] at hc
    rcases List.mem_append.mp hc with hc | hc
    · exact hch c hc
    · rw [List.mem_singleton.mp hc, wordCount_spaceJoin cur hclean]
      exact hlen
  · rw [if_neg hcur] at hc
    exact hch c hc

/-- Witness for the amended C2 bound at the counterexample text: the
13-word chunk respects `max 10 (5 + 10) = 15`. -/
theorem chunk_size_bound_witness :
    wordCount "a a a a a. b b b b b b b b." ≤
      max 10 (5 + maxSentenceWords "a a a a a a a a a a. b b b b b b b b. c") :=
  chunk_size_bound "a a a a a a a a a a. b b b b b b b b. c" 10 5
    "a a a a a. b b b b b b b b." (by decide)

/-! ## Lemmas about the change detector and loaders -/

theorem mem_diff_added {E : Type} (hashFn : String → String) (s : IndexState E)
    (d : List SrcFile) (f : String) :
    f ∈ (needsReindex hashFn s d).2.1 ↔
      f ∈ keysOf (computeFileHashes hashFn d) ∧ f ∉ keysOf s.manifest := by
  simp [needsReindex, mem_insSort, List.mem_filter, List.mem_dedup]

theorem mem_diff_removed {E : Type} (hashFn : String → String) (s : IndexState E)
    (d : List SrcFile) (f : String) :
    f ∈ (needsReindex hashFn s d).2.2.2 ↔
      f ∈ keysOf s.manifest ∧ f ∉ keysOf (computeFileHashes hashFn d) := by
  simp [needsReindex, mem_insSort, List.mem_filter, List.mem_dedup]

theorem mem_diff_changed {E : Type} (hashFn : String → String) (s : IndexState E)
    (d : List SrcFile) (f : String) :
    f ∈ (needsReindex hashFn s d).2.2.1 ↔
      f ∈ keysOf s.manifest ∧ f ∈ keysOf (computeFileHashes hashFn d) ∧
        lookupFst (computeFileHashes hashFn d) f ≠
          (lookupFst s.manifest f).map ManEntry.hash := by
  simp [needsReindex, mem_insSort, List.mem_filter, List.mem_dedup, and_assoc]

theorem lookupFst_keys [DecidableEq κ] (m : List (κ × β)) (f : κ) :
    f ∈ keysOf m ↔ ∃ v, lookupFst m f = some v := by
  induction m with
  | nil => simp [keysOf, lookupFst]
  | cons p rest ih =>
    rcases p with ⟨k, v⟩
    by_cases h : k = f
    · subst h
      simp [keysOf, lookupFst]
    · simp only [keysOf, List.map_cons, List.mem_cons, lookupFst, if_neg h]
      constructor
      · rintro (rfl | hf)
        · exact absurd rfl h
        · exact ih.mp hf
      · intro hv
        exact Or.inr (ih.mpr hv)

theorem mem_keys_computeFileHashes (hashFn : String → String) (d : List SrcFile)
    (f : String) :
    f ∈ keysOf (computeFileHashes hashFn d) ↔
      ∃ g ∈ d, g.name = f ∧ isSupported g.name = true := by
  unfold computeFileHashes keysOf sortByName
  rw [List.map_map, List.mem_map]
  constructor
  · rintro ⟨g, hg, rfl⟩
    rcases List.mem_filter.mp hg with ⟨hmem, hsupp⟩
    exact ⟨g, (insSort_perm _ d).mem_iff.mp hmem, rfl, hsupp⟩
  · rintro ⟨g, hg, rfl, hsupp⟩
    exact ⟨g, List.mem_filter.mpr ⟨(insSort_perm _ d).mem_iff.mpr hg, hsupp⟩, rfl⟩

theorem isSupported_cases (n : String) (h : isSupported n = true) :
    extLower n = ".pdf" ∨ extLower n = ".docx" := by
  unfold isSupported SUPPORTED_EXTENSIONS at h
  have h' := List.mem_of_elem_eq_true h
  simp only [List.mem_cons, List.not_mem_nil, or_false] at h'
  exact h'

theorem loadDocument_ok (parsePdf parseDocx : String → String) (f : SrcFile)
    (h : isSupported f.name = true) :
    ∃ t, loadDocument parsePdf parseDocx f = Except.ok t := by
  unfold loadDocument
  rcases isSupported_cases f.name h with he | he
  · rw [he]
    exact ⟨parsePdf f.bytes, rfl⟩
  · rw [he]
    exact ⟨parseDocx f.bytes, rfl⟩

theorem foldlM_except_ok {α β ε : Type} (g : β → α → Except ε β) (l : List α)
    (h : ∀ b a, a ∈ l → ∃ b', g b a = Except.ok b') :
    ∀ b, ∃ b', l.foldlM g b = Except.ok b' := by
  induction l with
  | nil => intro b; exact ⟨b, rfl⟩
  | cons a rest ih =>
    intro b
    rcases h b a (List.mem_cons_self a rest) with ⟨b1, hb1⟩
    rw [List.foldlM_cons, hb1]
    rcases ih (fun b a ha => h b a (List.mem_cons_of_mem _ ha)) b1 with ⟨b', hb'⟩
    exact ⟨b', hb'⟩

theorem loadDocuments_ok (parsePdf parseDocx : String → String) (d : List SrcFile) :
    ∃ docs, loadDocuments parsePdf parseDocx d = Except.ok docs := by
  unfold loadDocuments
  apply foldlM_except_ok
  intro docs f _
  by_cases hs : isSupported f.name = true
  · rw [if_pos hs]
    rcases loadDocument_ok parsePdf parseDocx f hs with ⟨t, ht⟩
    rw [ht]
    exact ⟨_, rfl⟩
  · rw [if_neg hs]
    exact ⟨docs, rfl⟩

theorem build_ok {E : Type} (embed : String → E) (hashFn : String → String)
    (parsePdf parseDocx : String → String) (s : IndexState E) (d : List SrcFile) :
    ∃ s', build embed hashFn parsePdf parseDocx s d = Except.ok s' := by
  unfold build
  rcases loadDocuments_ok parsePdf parseDocx d with ⟨docs, hdocs⟩
  rw [hdocs]
  exact ⟨_, rfl⟩

theorem loadForReindex_ok (parsePdf parseDocx : String → String)
    (hashFn : String → String) (d : List SrcFile) (fname : String)
    (hmem : fname ∈ keysOf (computeFileHashes hashFn d)) :
    ∃ t, loadForReindex parsePdf parseDocx d fname = Except.ok t := by
  rcases (mem_keys_computeFileHashes hashFn d fname).mp hmem
    with ⟨g, hg, hgname, hgsupp⟩
  have hfind : (d.find? (fun f => decide (f.name = fname))).isSome := by
    rw [List.find?_isSome]
    exact ⟨g, hg, by simp [hgname]⟩
  rcases Option.isSome_iff_exists.mp hfind with ⟨g', hg'⟩
  have hg'name : g'.name = fname := by
    have := List.find?_some hg'
    simpa using this
  rcases loadDocument_ok parsePdf parseDocx g'
    (by rw [hg'name, ← hgname] at *; exact hgsupp) with ⟨t, ht⟩
  unfold loadForReindex
  rw [hg']
  exact ⟨t, ht⟩

theorem reindexAddStep_ok (hashFn parsePdf parseDocx : String → String)
    (d : List SrcFile) (fname : String)
    (hmem : fname ∈ keysOf (computeFileHashes hashFn d))
    (acc : List Chunk × List (String × ManEntry) × List String) :
    ∃ acc', reindexAddStep hashFn parsePdf parseDocx d acc fname = Except.ok acc' := by
  rcases loadForReindex_ok parsePdf parseDocx hashFn d fname hmem with ⟨t, ht⟩
  rcases (lookupFst_keys (computeFileHashes hashFn d) fname).mp hmem with ⟨hv, hhv⟩
  unfold reindexAddStep
  simp only [Bind.bind, Except.bind, pure, Except.pure, ht, hhv]
  exact ⟨_, rfl⟩

theorem reindexAdd_ok {E : Type} (embed : String → E) (hashFn : String → String)
    (parsePdf parseDocx : String → String) (s : IndexState E) (d : List SrcFile)
    (toAdd : List String)
    (hsub : ∀ f ∈ toAdd, f ∈ keysOf (computeFileHashes hashFn d)) :
    ∃ s', reindexAdd embed hashFn parsePdf parseDocx s d toAdd = Except.ok s' := by
  unfold reindexAdd
  by_cases h0 : toAdd.isEmpty
  · rw [if_pos h0]
    exact ⟨s, rfl⟩
  · rw [if_neg h0]
    simp only []
    have hfold : ∃ r, toAdd.foldlM (reindexAddStep hashFn parsePdf parseDocx d)
        (s.chunks, s.manifest, []) = Except.ok r := by
      apply foldlM_except_ok
      intro acc fname hmem
      exact reindexAddStep_ok hashFn parsePdf parseDocx d fname (hsub fname hmem) acc
    rcases hfold with ⟨r, hr⟩
    rw [hr]
    exact ⟨_, rfl⟩

theorem reindex_ok {E : Type} (embed : String → E) (hashFn : String → String)
    (parsePdf parseDocx : String → String) (s : IndexState E) (d : List SrcFile) :
    ∃ s', reindex embed hashFn parsePdf parseDocx s d = Except.ok s' := by
  unfold reindex
  rcases hneq : needsReindex hashFn s d with ⟨needs, added, changed, removed⟩
  simp only []
  by_cases hn : needs = true
  · rw [hn]
    simp only [Bool.not_true]
    rw [if_neg (by simp)]
    have hsub : ∀ f ∈ insSort strLe ((added ++ changed).dedup),
        f ∈ keysOf (computeFileHashes hashFn d) := by
      intro f hf
      have hf' := (mem_insSort _ _ f).mp hf
      rw [List.mem_dedup, List.mem_append] at hf'
      rcases hf' with hf' | hf'
      · have : f ∈ (needsReindex hashFn s d).2.1 := by rw [hneq]; exact hf'
        exact ((mem_diff_added hashFn s d f).mp this).1
      · have : f ∈ (needsReindex hashFn s d).2.2.1 := by rw [hneq]; exact hf'
        exact ((mem_diff_changed hashFn s d f).mp this).2.1
    rcases reindexAdd_ok embed hashFn parsePdf parseDocx
      (reindexRemove (s := s) ((removed ++ changed).dedup)) d
      (insSort strLe ((added ++ changed).dedup)) hsub with ⟨s2, hs2⟩
    rw [hs2]
    exact ⟨_, rfl⟩
  · rw [Bool.not_eq_true] at hn
    rw [hn]
    exact ⟨s, rfl⟩

/-! ## Claim C9 — `needs_reindex` is a pure query -/

/-- C9: `needs_reindex` mutates nothing — after the call the chunk list,
the embedding matrix, the manifest and the BM25 model are all unchanged,
and the returned value is exactly the change detector's diff. -/
theorem needs_reindex_pure {E : Type} (hashFn : String → String)
    (s : IndexState E) (d : List SrcFile) :
    (needsReindexSt hashFn s d).1.chunks = s.chunks ∧
      (needsReindexSt hashFn s d).1.embeddings = s.embeddings ∧
      (needsReindexSt hashFn s d).1.manifest = s.manifest ∧
      (needsReindexSt hashFn s d).1.bm25 = s.bm25 ∧
      (needsReindexSt hashFn s d).2 = needsReindex hashFn s d :=
  ⟨rfl, rfl, rfl, rfl, rfl⟩

/-! ## Claim C8 — change-detection classification -/

/-- C8: the diff computed by `needs_reindex` classifies every filename into
the three disjoint groups: added (in current, not in manifest), removed (in
manifest, not in current), changed (in both, hashes differ); a file present
in both with an equal hash lands in no group. -/
theorem change_detection_classification {E : Type} (hashFn : String → String)
    (s : IndexState E) (d : List SrcFile) (f : String) :
    (f ∈ (needsReindex hashFn s d).2.1 ↔
        f ∈ keysOf (computeFileHashes hashFn d) ∧ f ∉ keysOf s.manifest) ∧
      (f ∈ (needsReindex hashFn s d).2.2.2 ↔
        f ∈ keysOf s.manifest ∧ f ∉ keysOf (computeFileHashes hashFn d)) ∧
      (f ∈ (needsReindex hashFn s d).2.2.1 ↔
        f ∈ keysOf s.manifest ∧ f ∈ keysOf (computeFileHashes hashFn d) ∧
          lookupFst (computeFileHashes hashFn d) f ≠
            (lookupFst s.manifest f).map ManEntry.hash) ∧
      (f ∈ (needsReindex hashFn s d).2.2.1 →
        f ∉ (needsReindex hashFn s d).2.1 ∧ f ∉ (needsReindex hashFn s d).2.2.2) ∧
      (f ∈ keysOf s.manifest → f ∈ keysOf (computeFileHashes hashFn d) →
        lookupFst (computeFileHashes hashFn d) f =
            (lookupFst s.manifest f).map ManEntry.hash →
          f ∉ (needsReindex hashFn s d).2.1 ∧
            f ∉ (needsReindex hashFn s d).2.2.1 ∧
            f ∉ (needsReindex hashFn s d).2.2.2) := by
  have hadd := mem_diff_added hashFn s d f
  have hrem := mem_diff_removed hashFn s d f
  have hchg := mem_diff_changed hashFn s d f
  refine ⟨hadd, hrem, hchg, ?_, ?_⟩
  · intro hf
    rcases hchg.mp hf with ⟨hman, hcur, _⟩
    exact ⟨fun h => (hadd.mp h).2 hman, fun h => (hrem.mp h).2 hcur⟩
  · intro hman hcur heq
    refine ⟨fun h => (hadd.mp h).2 hman, fun h => ?_, fun h => (hrem.mp h).2 hcur⟩
    exact (hchg.mp h).2.2 heq

/-- Witness for C8 at a concrete state and directory: the file `a.pdf` is
present in both manifest and directory with a different hash, so it is
classified as changed and is in neither the added nor the removed group,
while the unchanged `b.pdf` is in no group. -/
theorem change_detection_classification_witness :
    ("a.pdf" ∉ (needsReindex id
        ({ chunks := [], embeddings := ([] : List Unit),
           manifest := [("a.pdf", ⟨"old", 0, 0⟩), ("b.pdf", ⟨"bb", 0, 0⟩)],
           bm25 := bm25Init } : IndexState Unit)
        [⟨"a.pdf", "new"⟩, ⟨"b.pdf", "bb"⟩]).2.1 ∧
      "a.pdf" ∉ (needsReindex id
        ({ chunks := [], embeddings := ([] : List Unit),
           manifest := [("a.pdf", ⟨"old", 0, 0⟩), ("b.pdf", ⟨"bb", 0, 0⟩)],
           bm25 := bm25Init } : IndexState Unit)
        [⟨"a.pdf", "new"⟩, ⟨"b.pdf", "bb"⟩]).2.2.2) ∧
      ("b.pdf" ∉ (needsReindex id
        ({ chunks := [], embeddings := ([] : List Unit),
           manifest := [("a.pdf", ⟨"old", 0, 0⟩), ("b.pdf", ⟨"bb", 0, 0⟩)],
           bm25 := bm25Init } : IndexState Unit)
        [⟨"a.pdf", "new"⟩, ⟨"b.pdf", "bb"⟩]).2.1 ∧
        "b.pdf" ∉ (needsReindex id
        ({ chunks := [], embeddings := ([] : List Unit),
           manifest := [("a.pdf", ⟨"old", 0, 0⟩), ("b.pdf", ⟨"bb", 0, 0⟩)],
           bm25 := bm25Init } : IndexState Unit)
        [⟨"a.pdf", "new"⟩, ⟨"b.pdf", "bb"⟩]).2.2.1 ∧
        "b.pdf" ∉ (needsReindex id
        ({ chunks := [], embeddings := ([] : List Unit),
           manifest := [("a.pdf", ⟨"old", 0, 0⟩), ("b.pdf", ⟨"bb", 0, 0⟩)],
           bm25 := bm25Init } : IndexState Unit)
        [⟨"a.pdf", "new"⟩, ⟨"b.pdf", "bb"⟩]).2.2.2) :=
  ⟨(change_detection_classification id _ _ "a.pdf").2.2.2.1 (by decide),
   (change_detection_classification id _ _ "b.pdf").2.2.2.2
     (by decide) (by decide) (by decide)⟩

/-! ## Lemmas about rank fusion -/

theorem lookupFst_mem [DecidableEq κ] (m : List (κ × β)) (k : κ) (v : β)
    (h : lookupFst m k = some v) : (k, v) ∈ m := by
  induction m with
  | nil => cases h
  | cons p rest ih =>
    rcases p with ⟨k', v'⟩
    unfold lookupFst at h
    by_cases hk : k' = k
    · rw [if_pos hk] at h
      cases h
      subst hk
      exact List.mem_cons_self _ _
    · rw [if_neg hk] at h
      exact List.mem_cons_of_mem _ (ih h)

theorem lookupFst_of_mem_nodup [DecidableEq κ] (m : List (κ × β)) (k : κ) (v : β)
    (hnd : (keysOf m).Nodup) (h : (k, v) ∈ m) : lookupFst m k = some v := by
  induction m with
  | nil => cases h
  | cons p rest ih =>
    rcases p with ⟨k', v'⟩
    rcases List.nodup_cons.mp hnd with ⟨hk', hrest⟩
    rcases List.mem_cons.mp h with h | h
    · cases h
      unfold lookupFst
      rw [if_pos rfl]
    · unfold lookupFst
      by_cases hk : k' = k
      · subst hk
        exact absurd (List.mem_map_of_mem Prod.fst h) hk'
      · rw [if_neg hk]
        exact ih hrest h

theorem rrfDictAdd_lookup_same (D : List (Nat × ℚ)) (q : Nat) (v : ℚ) :
    lookupFst (rrfDictAdd D q v) q = some ((lookupFst D q).getD 0 + v) := by
  induction D with
  | nil => simp [rrfDictAdd, lookupFst]
  | cons p rest ih =>
    rcases p with ⟨d, s⟩
    by_cases hd : d = q
    · subst hd
      simp [rrfDictAdd, lookupFst]
    · simp [rrfDictAdd, lookupFst, hd, ih]

theorem rrfDictAdd_lookup_other (D : List (Nat × ℚ)) (q : Nat) (v : ℚ) (r : Nat)
    (h : r ≠ q) : lookupFst (rrfDictAdd D q v) r = lookupFst D r := by
  induction D with
  | nil => simp [rrfDictAdd, lookupFst, Ne.symm h]
  | cons p rest ih =>
    rcases p with ⟨d, s⟩
    by_cases hd : d = q
    · subst hd
      simp [rrfDictAdd, lookupFst, Ne.symm h]
    · simp [rrfDictAdd, lookupFst, hd, ih]

theorem rrfDictAdd_mem_keys (D : List (Nat × ℚ)) (q : Nat) (v : ℚ) (r : Nat) :
    r ∈ keysOf (rrfDictAdd D q v) ↔ r ∈ keysOf D ∨ r = q := by
  induction D with
  | nil => simp [rrfDictAdd, keysOf]
  | cons p rest ih =>
    rcases p with ⟨d, s⟩
    by_cases hd : d = q
    · subst hd
      have hred : rrfDictAdd ((d, s) :: rest) d v = (d, s + v) :: rest := by
        simp [rrfDictAdd]
      rw [hred]
      simp only [keysOf, List.map_cons, List.mem_cons]
      tauto
    · have hred : rrfDictAdd ((d, s) :: rest) q v = (d, s) :: rrfDictAdd rest q v := by
        simp [rrfDictAdd, hd]
      rw [hred]
      simp only [keysOf, List.map_cons, List.mem_cons] at ih ⊢
      rw [ih]
      tauto

theorem rrfDictAdd_keys_nodup (D : List (Nat × ℚ)) (q : Nat) (v : ℚ)
    (h : (keysOf D).Nodup) : (keysOf (rrfDictAdd D q v)).Nodup := by
  induction D with
  | nil => simp [rrfDictAdd, keysOf]
  | cons p rest ih =>
    rcases p with ⟨d, s⟩
    rcases List.nodup_cons.mp h with ⟨hd', hrest⟩
    by_cases hd : d = q
    · subst hd
      have hred : rrfDictAdd ((d, s) :: rest) d v = (d, s + v) :: rest := by
        simp [rrfDictAdd]
      rw [hred]
      simpa only [keysOf, List.map_cons, List.nodup_cons] using List.nodup_cons.mp h
    · have hred : rrfDictAdd ((d, s) :: rest) q v = (d, s) :: rrfDictAdd rest q v := by
        simp [rrfDictAdd, hd]
      rw [hred]
      simp only [keysOf, List.map_cons]
      refine List.nodup_cons.mpr ⟨?_, ih hrest⟩
      intro hmem
      rcases (rrfDictAdd_mem_keys rest q v d).mp hmem with hmem | rfl
      · exact hd' hmem
      · exact hd rfl

theorem foldl_rrfStep_score (k : Nat) (pairs : List (Nat × (Nat × α))) :
    ∀ (D : List (Nat × ℚ)) (r : Nat),
      (lookupFst (pairs.foldl
          (fun sc rc => rrfDictAdd sc rc.2.1 ((1 : ℚ) / (k + rc.1 + 1))) D) r).getD 0 =
        (lookupFst D r).getD 0 +
          ((pairs.filter fun rc => rc.2.1 = r).map
            fun rc => (1 : ℚ) / (k + rc.1 + 1)).sum := by
  induction pairs with
  | nil => intro D r; simp
  | cons a pairs ih =>
    intro D r
    rw [List.foldl_cons, ih, List.filter_cons]
    by_cases ha : a.2.1 = r
    · rw [if_pos (by simpa using ha)]
      subst ha
      rw [List.map_cons, List.sum_cons, rrfDictAdd_lookup_same]
      simp only [Option.getD_some]
      ring
    · rw [if_neg (by simpa using ha), rrfDictAdd_lookup_other _ _ _ _ (fun he => ha he.symm)]

theorem foldl_rrfStep_keys (k : Nat) (pairs : List (Nat × (Nat × α))) :
    ∀ (D : List (Nat × ℚ)) (r : Nat),
      r ∈ keysOf (pairs.foldl
          (fun sc rc => rrfDictAdd sc rc.2.1 ((1 : ℚ) / (k + rc.1 + 1))) D) ↔
        r ∈ keysOf D ∨ r ∈ pairs.map fun rc => rc.2.1 := by
  induction pairs with
  | nil => intro D r; simp
  | cons a pairs ih =>
    intro D r
    rw [List.foldl_cons, ih, rrfDictAdd_mem_keys, List.map_cons, List.mem_cons]
    tauto

theorem foldl_rrfStep_nodup (k : Nat) (pairs : List (Nat × (Nat × α))) :
    ∀ D : List (Nat × ℚ), (keysOf D).Nodup →
      (keysOf (pairs.foldl
        (fun sc rc => rrfDictAdd sc rc.2.1 ((1 : ℚ) / (k + rc.1 + 1))) D)).Nodup := by
  induction pairs with
  | nil => intro D h; exact h
  | cons a pairs ih =>
    intro D h
    rw [List.foldl_cons]
    exact ih _ (rrfDictAdd_keys_nodup D _ _ h)

theorem rrfAccum_score (k : Nat) (lists : List (List (Nat × α))) :
    ∀ (D : List (Nat × ℚ)) (r : Nat),
      (lookupFst (lists.foldl (rrfAddList k) D) r).getD 0 =
        (lookupFst D r).getD 0 + rrfSpecScore lists k r := by
  induction lists with
  | nil => intro D r; simp [rrfSpecScore]
  | cons l lists ih =>
    intro D r
    rw [List.foldl_cons, ih]
    unfold rrfAddList
    rw [foldl_rrfStep_score]
    unfold rrfSpecScore
    rw [List.map_cons, List.sum_cons]
    ring

theorem rrfAccum_keys (k : Nat) (lists : List (List (Nat × α))) :
    ∀ (D : List (Nat × ℚ)) (r : Nat),
      r ∈ keysOf (lists.foldl (rrfAddList k) D) ↔
        r ∈ keysOf D ∨ ∃ l ∈ lists, r ∈ l.map Prod.fst := by
  induction lists with
  | nil => intro D r; simp
  | cons l lists ih =>
    intro D r
    rw [List.foldl_cons, ih]
    unfold rrfAddList
    rw [foldl_rrfStep_keys]
    constructor
    · rintro ((h | h) | h)
      · exact Or.inl h
      · refine Or.inr ⟨l, List.mem_cons_self l lists, ?_⟩
        rcases List.mem_map.mp h with ⟨rc, hrc, rfl⟩
        have hrc2 : rc.2 ∈ l := by
          have := List.mem_enum_iff_getElem?.mp hrc
          rcases List.getElem?_eq_some.mp this with ⟨hlt, hget⟩
          rw [← hget]
          exact List.getElem_mem hlt
        exact List.mem_map_of_mem Prod.fst hrc2
      · rcases h with ⟨l', hl', hr⟩
        exact Or.inr ⟨l', List.mem_cons_of_mem l hl', hr⟩
    · rintro (h | ⟨l', hl', hr⟩)
      · exact Or.inl (Or.inl h)
      · rcases List.mem_cons.mp hl' with rfl | hl'
        · refine Or.inl (Or.inr ?_)
          rcases List.mem_map.mp hr with ⟨c, hc, rfl⟩
          rcases List.getElem?_of_mem hc with ⟨i, hi⟩
          refine List.mem_map.mpr ⟨(i, c), ?_, rfl⟩
          exact List.mem_enum_iff_getElem?.mpr hi
        · exact Or.inr ⟨l', hl', hr⟩

theorem rrfAccum_nodup (k : Nat) (lists : List (List (Nat × α))) :
    ∀ D : List (Nat × ℚ), (keysOf D).Nodup →
      (keysOf (lists.foldl (rrfAddList k) D)).Nodup := by
  induction lists with
  | nil => intro D h; exact h
  | cons l lists ih =>
    intro D h
    rw [List.foldl_cons]
    exact ih _ (foldl_rrfStep_nodup k _ D h)

theorem mem_nodup_key_eq [DecidableEq κ] (m : List (κ × β))
    (hnd : (keysOf m).Nodup) (a b : κ × β) (ha : a ∈ m) (hb : b ∈ m)
    (hk : a.1 = b.1) : a = b := by
  have h1 : lookupFst m a.1 = some a.2 := lookupFst_of_mem_nodup m a.1 a.2 hnd ha
  have h2 : lookupFst m b.1 = some b.2 := lookupFst_of_mem_nodup m b.1 b.2 hnd hb
  rw [hk, h2] at h1
  exact Prod.ext hk (Option.some.inj h1).symm

theorem filter_enumFrom_count_zero (q : Nat) :
    ∀ (rest : List (Nat × α)) (n : Nat), (rest.map Prod.fst).count q = 0 →
      (List.enumFrom n rest).filter (fun rc => rc.2.1 = q) = [] := by
  intro rest
  induction rest with
  | nil => intro n _; rfl
  | cons a rest ih =>
    intro n hc
    rw [List.map_cons, List.count_cons] at hc
    have ha : a.1 ≠ q := by
      intro he
      simp [he] at hc
    have hrest : (rest.map Prod.fst).count q = 0 := by omega
    rw [List.enumFrom_cons, List.filter_cons, if_neg (by simpa using ha)]
    exact ih (n + 1) hrest

theorem sum_filter_enumFrom_le (k q : Nat) :
    ∀ (rest : List (Nat × α)) (n : Nat), 1 ≤ n →
      (rest.map Prod.fst).count q ≤ 1 →
      (((List.enumFrom n rest).filter fun rc => rc.2.1 = q).map
        fun rc => (1 : ℚ) / (k + rc.1 + 1)).sum ≤ 1 / (k + 2) := by
  intro rest
  induction rest with
  | nil =>
    intro n _ _
    simp only [List.enumFrom, List.filter_nil, List.map_nil, List.sum_nil]
    positivity
  | cons a rest ih =>
    intro n hn hc
    rw [List.map_cons, List.count_cons] at hc
    rw [List.enumFrom_cons, List.filter_cons]
    by_cases ha : a.1 = q
    · rw [if_pos (by simpa using ha)]
      have hrest : (rest.map Prod.fst).count q = 0 := by
        simp only [ha] at hc
        simp at hc
        omega
      rw [filter_enumFrom_count_zero q rest (n + 1) hrest]
      simp only [List.map_cons, List.map_nil, List.sum_cons, List.sum_nil, add_zero]
      apply one_div_le_one_div_of_le
      · positivity
      · have : (1 : ℚ) ≤ (n : ℚ) := by exact_mod_cast hn
        linarith
    · rw [if_neg (by simpa using ha)]
      exact ih (n + 1) (by omega) (le_trans (Nat.le_add_right _ _) hc)

/-- The per-list contribution of the rank-0 element `p` of a duplicate-free
ranked list is exactly `1 / (k + 1)`. -/
theorem rrf_list_top (k p : Nat) (l : List (Nat × α))
    (hh : (l.map Prod.fst).head? = some p) (hnd : (l.map Prod.fst).Nodup) :
    ((l.enum.filter fun rc => rc.2.1 = p).map
      fun rc => (1 : ℚ) / (k + rc.1 + 1)).sum = 1 / (k + 1) := by
  cases l with
  | nil => cases hh
  | cons a rest =>
    rw [List.map_cons, List.head?_cons] at hh
    have ha : a.1 = p := Option.some.inj hh
    rcases List.nodup_cons.mp (by rw [List.map_cons] at hnd; exact hnd) with ⟨hnin, _⟩
    have hzero : (rest.map Prod.fst).count p = 0 := by
      rw [← ha] at *
      exact List.count_eq_zero.mpr hnin
    rw [List.enum_cons, List.filter_cons, if_pos (by simpa using ha),
      filter_enumFrom_count_zero p rest 1 hzero]
    norm_num

/-- The per-list contribution of any position other than the rank-0 element
of a duplicate-free ranked list is at most `1 / (k + 2)`. -/
theorem rrf_list_other (k p q : Nat) (l : List (Nat × α)) (hq : q ≠ p)
    (hh : (l.map Prod.fst).head? = some p) (hnd : (l.map Prod.fst).Nodup) :
    ((l.enum.filter fun rc => rc.2.1 = q).map
      fun rc => (1 : ℚ) / (k + rc.1 + 1)).sum ≤ 1 / (k + 2) := by
  cases l with
  | nil => cases hh
  | cons a rest =>
    rw [List.map_cons, List.head?_cons] at hh
    have ha : a.1 = p := Option.some.inj hh
    rcases List.nodup_cons.mp (by rw [List.map_cons] at hnd; exact hnd) with ⟨_, hrest⟩
    rw [List.enum_cons, List.filter_cons,
      if_neg (by simp only [ha, decide_eq_true_eq]; exact fun he => hq he.symm)]
    exact sum_filter_enumFrom_le k q rest 1 (le_refl 1)
      (List.nodup_iff_count_le_one.mp hrest q)

theorem sum_map_eq_mul (lists : List β) (f : β → ℚ) (c : ℚ)
    (h : ∀ l ∈ lists, f l = c) : (lists.map f).sum = lists.length * c := by
  induction lists with
  | nil => simp
  | cons l rest ih =>
    rw [List.map_cons, List.sum_cons, h l (List.mem_cons_self l rest),
      ih (fun u hu => h u (List.mem_cons_of_mem l hu)), List.length_cons]
    push_cast
    ring

theorem sum_map_le_mul (lists : List β) (f : β → ℚ) (c : ℚ)
    (h : ∀ l ∈ lists, f l ≤ c) : (lists.map f).sum ≤ lists.length * c := by
  induction lists with
  | nil => simp
  | cons l rest ih =>
    rw [List.map_cons, List.sum_cons, List.length_cons]
    have h1 := h l (List.mem_cons_self l rest)
    have h2 := ih (fun u hu => h u (List.mem_cons_of_mem l hu))
    push_cast
    linarith

/-! ## Claim C4 — unsupported extensions -/

/-- C4, counterexample: a directory containing the unsupported file
`n.txt` is processed by both `build` and `reindex` without any error —
`load_documents` and `compute_file_hashes` filter on
`config.SUPPORTED_EXTENSIONS` before ever calling `load_document`, so the
unsupported file is skipped silently, contradicting the claimed fatal
error. -/
theorem unsupported_extension_refuted :
    isSupported "n.txt" = false ∧
      exceptIsOk (build (fun t : String => t) (fun b => b) (fun b => b) (fun b => b)
        emptyIndex [⟨"a.pdf", "x. y y."⟩, ⟨"n.txt", "zz"⟩]) = true ∧
      exceptIsOk (reindex (fun t : String => t) (fun b => b) (fun b => b) (fun b => b)
        emptyIndex [⟨"a.pdf", "x. y y."⟩, ⟨"n.txt", "zz"⟩]) = true :=
  ⟨rfl, rfl, rfl⟩

/-- C4, amended: `load_document` itself raises `ValueError` when called
directly on an unsupported extension, but `build` and `reindex` pre-filter
the directory to the supported extensions and therefore never fail because
an unsupported file is present — such files are skipped silently. -/
theorem unsupported_extension_behavior {E : Type} (embed : String → E)
    (hashFn parsePdf parseDocx : String → String) :
    (∀ f : SrcFile, isSupported f.name = false →
        loadDocument parsePdf parseDocx f =
          Except.error ("Unsupported file type: " ++ extLower f.name)) ∧
      (∀ (s : IndexState E) (d : List SrcFile),
        exceptIsOk (build embed hashFn parsePdf parseDocx s d) = true) ∧
      (∀ (s : IndexState E) (d : List SrcFile),
        exceptIsOk (reindex embed hashFn parsePdf parseDocx s d) = true) := by
  refine ⟨?_, ?_, ?_⟩
  · intro f hf
    have h1 : extLower f.name ≠ ".pdf" := by
      intro he
      rw [show isSupported f.name =
        SUPPORTED_EXTENSIONS.contains (extLower f.name) from rfl, he] at hf
      exact absurd hf (by decide)
    have h2 : extLower f.name ≠ ".docx" := by
      intro he
      rw [show isSupported f.name =
        SUPPORTED_EXTENSIONS.contains (extLower f.name) from rfl, he] at hf
      exact absurd hf (by decide)
    unfold loadDocument
    rw [if_neg h1, if_neg h2]
  · intro s d
    rcases build_ok embed hashFn parsePdf parseDocx s d with ⟨s', hs'⟩
    rw [hs']
    rfl
  · intro s d
    rcases reindex_ok embed hashFn parsePdf parseDocx s d with ⟨s', hs'⟩
    rw [hs']
    rfl

/-- Witness for the amended C4 at a concrete directory holding only the
unsupported `n.txt`: direct loading errors, while build and reindex
complete. -/
theorem unsupported_extension_behavior_witness :
    loadDocument (fun b => b) (fun b => b) ⟨"n.txt", "zz"⟩ =
        Except.error ("Unsupported file type: " ++ extLower "n.txt") ∧
      exceptIsOk (build (fun t : String => t) (fun b => b) (fun b => b) (fun b => b)
        emptyIndex [⟨"n.txt", "zz"⟩]) = true ∧
      exceptIsOk (reindex (fun t : String => t) (fun b => b) (fun b => b) (fun b => b)
        emptyIndex [⟨"n.txt", "zz"⟩]) = true :=
  ⟨(unsupported_extension_behavior (fun t : String => t) (fun b => b) (fun b => b)
      (fun b => b)).1 ⟨"n.txt", "zz"⟩ (by decide),
   (unsupported_extension_behavior (fun t : String => t) (fun b => b) (fun b => b)
      (fun b => b)).2.1 emptyIndex [⟨"n.txt", "zz"⟩],
   (unsupported_extension_behavior (fun t : String => t) (fun b => b) (fun b => b)
      (fun b => b)).2.2 emptyIndex [⟨"n.txt", "zz"⟩]⟩

/-! ## Claim C6 — RRF monotonicity -/

/-- C6: for a non-empty collection of ranked lists (each with pairwise
distinct chunk positions), a chunk position occupying 0-based rank 0 in
every list receives the maximum possible fused score — the number of lists
divided by `k + 1` — no other entry scores above it, and it appears first
in the fused output. -/
theorem rrf_top_rank_first {α : Type} (lists : List (List (Nat × α))) (k p : Nat)
    (hne : lists ≠ [])
    (hnd : ∀ l ∈ lists, (l.map Prod.fst).Nodup)
    (hp : ∀ l ∈ lists, (l.map Prod.fst).head? = some p) :
    (p, (lists.length : ℚ) / (k + 1)) ∈ rrfFuse lists k ∧
      (∀ q s, (q, s) ∈ rrfFuse lists k → s ≤ (lists.length : ℚ) / (k + 1)) ∧
      (rrfFuse lists k).head? = some (p, (lists.length : ℚ) / (k + 1)) := by
  have hD0 : (keysOf ([] : List (Nat × ℚ))).Nodup := by simp [keysOf]
  have hDnd := rrfAccum_nodup k lists [] hD0
  have hscore : ∀ r, (lookupFst (lists.foldl (rrfAddList k) []) r).getD 0 =
      rrfSpecScore lists k r := by
    intro r
    rw [rrfAccum_score]
    simp [lookupFst]
  have hspec_p : rrfSpecScore lists k p = lists.length * (1 / (k + 1)) := by
    unfold rrfSpecScore
    exact sum_map_eq_mul lists _ _ (fun l hl => rrf_list_top k p l (hp l hl) (hnd l hl))
  have hspec_q : ∀ q, q ≠ p → rrfSpecScore lists k q ≤ lists.length * (1 / (k + 2)) := by
    intro q hq
    exact sum_map_le_mul lists _ _
      (fun l hl => rrf_list_other k p q l hq (hp l hl) (hnd l hl))
  have hLpos : 0 < lists.length := List.length_pos.mpr hne
  have hLval : (lists.length : ℚ) * (1 / (k + 1)) = (lists.length : ℚ) / (k + 1) :=
    mul_one_div _ _
  obtain ⟨l0, hl0⟩ : ∃ l0, l0 ∈ lists := by
    cases lists with
    | nil => exact absurd rfl hne
    | cons a r => exact ⟨a, List.mem_cons_self a r⟩
  have hpk : p ∈ keysOf (lists.foldl (rrfAddList k) []) := by
    rw [rrfAccum_keys]
    refine Or.inr ⟨l0, hl0, ?_⟩
    refine List.mem_of_mem_head? ?_
    rw [hp l0 hl0]
    rfl
  obtain ⟨v, hv⟩ := (lookupFst_keys _ p).mp hpk
  have hvval : v = (lists.length : ℚ) / (k + 1) := by
    have := hscore p
    rw [hv] at this
    simp only [Option.getD_some] at this
    rw [this, hspec_p, hLval]
  have hmemD : (p, (lists.length : ℚ) / (k + 1)) ∈ lists.foldl (rrfAddList k) [] := by
    refine lookupFst_mem _ p _ ?_
    rw [hv, hvval]
  have hboundD : ∀ q s, (q, s) ∈ lists.foldl (rrfAddList k) [] →
      s ≤ (lists.length : ℚ) / (k + 1) := by
    intro q s hqs
    have hlk := lookupFst_of_mem_nodup _ q s hDnd hqs
    have hs : s = rrfSpecScore lists k q := by
      have := hscore q
      rw [hlk] at this
      simpa using this
    by_cases hqp : q = p
    · subst hqp
      rw [hs, hspec_p, hLval]
    · rw [hs]
      refine le_trans (hspec_q q hqp) ?_
      rw [← hLval]
      refine mul_le_mul_of_nonneg_left ?_ (by positivity)
      apply one_div_le_one_div_of_le
      · positivity
      · linarith
  have hstrictD : ∀ q s, (q, s) ∈ lists.foldl (rrfAddList k) [] → q ≠ p →
      s < (lists.length : ℚ) / (k + 1) := by
    intro q s hqs hqp
    have hlk := lookupFst_of_mem_nodup _ q s hDnd hqs
    have hs : s = rrfSpecScore lists k q := by
      have := hscore q
      rw [hlk] at this
      simpa using this
    rw [hs, ← hLval]
    refine lt_of_le_of_lt (hspec_q q hqp) ?_
    have hcast : (0 : ℚ) < (lists.length : ℚ) := by exact_mod_cast hLpos
    refine mul_lt_mul_of_pos_left ?_ hcast
    apply one_div_lt_one_div_of_lt
    · positivity
    · linarith
  have htot : ∀ a b : Nat × ℚ,
      decide (b.2 ≤ a.2) = true ∨ decide (a.2 ≤ b.2) = true := by
    intro a b
    rcases le_total b.2 a.2 with h | h
    · exact Or.inl (decide_eq_true h)
    · exact Or.inr (decide_eq_true h)
  have htrans : ∀ a b c : Nat × ℚ, decide (b.2 ≤ a.2) = true →
      decide (c.2 ≤ b.2) = true → decide (c.2 ≤ a.2) = true := by
    intro a b c h1 h2
    exact decide_eq_true (le_trans (of_decide_eq_true h2) (of_decide_eq_true h1))
  have hpair := insSort_pairwise (fun a b : Nat × ℚ => decide (b.2 ≤ a.2)) htot htrans
    (lists.foldl (rrfAddList k) [])
  have hmemS : (p, (lists.length : ℚ) / (k + 1)) ∈
      insSort (fun a b : Nat × ℚ => decide (b.2 ≤ a.2)) (lists.foldl (rrfAddList k) []) :=
    (mem_insSort _ _ _).mpr hmemD
  refine ⟨hmemS, ?_, ?_⟩
  · intro q s hqs
    exact hboundD q s ((mem_insSort _ _ _).mp hqs)
  · show (insSort (fun a b : Nat × ℚ => decide (b.2 ≤ a.2))
        (lists.foldl (rrfAddList k) [])).head? =
      some (p, (lists.length : ℚ) / (k + 1))
    cases hh : (insSort (fun a b : Nat × ℚ => decide (b.2 ≤ a.2))
        (lists.foldl (rrfAddList k) [])).head? with
    | none =>
      rw [List.head?_eq_none_iff.mp hh] at hmemS
      cases hmemS
    | some h0 =>
      rcases head_le_of_pairwise _ _ hpair h0 hh _ hmemS with heq | hle
      · rw [← heq]
      · have hL_le : (lists.length : ℚ) / (k + 1) ≤ h0.2 := of_decide_eq_true hle
        have h0mem : h0 ∈ lists.foldl (rrfAddList k) [] := by
          have hmemSort : h0 ∈ insSort (fun a b : Nat × ℚ => decide (b.2 ≤ a.2))
              (lists.foldl (rrfAddList k) []) :=
            List.mem_of_mem_head? (by rw [hh]; rfl)
          exact (mem_insSort _ _ _).mp hmemSort
        by_cases h0p : h0.1 = p
        · have heq0 : h0 = (p, (lists.length : ℚ) / (k + 1)) :=
            mem_nodup_key_eq _ hDnd h0 _ h0mem hmemD (by simpa using h0p)
          rw [heq0]
        · have hlt : h0.2 < (lists.length : ℚ) / (k + 1) :=
            hstrictD h0.1 h0.2 (by simpa using h0mem) h0p
          exact absurd hL_le (not_le.mpr hlt)

/-- Witness for C6: position 5 is ranked first in both input lists, so
it is first in the fused output with fused score `2 / 61`. -/
theorem rrf_top_rank_first_witness :
    (5, (([[(5, "a"), (2, "b")], [(5, "c")]] : List (List (Nat × String))).length : ℚ)
        / ((60 : Nat) + 1)) ∈ rrfFuse [[(5, "a"), (2, "b")], [(5, "c")]] 60 ∧
      (rrfFuse [[(5, "a"), (2, "b")], [(5, "c")]] 60).head? =
        some (5, (([[(5, "a"), (2, "b")], [(5, "c")]] : List (List (Nat × String))).length : ℚ)
          / ((60 : Nat) + 1)) :=
  ⟨(rrf_top_rank_first [[(5, "a"), (2, "b")], [(5, "c")]] 60 5 (by decide) (by decide)
      (by decide)).1,
   (rrf_top_rank_first [[(5, "a"), (2, "b")], [(5, "c")]] 60 5 (by decide) (by decide)
      (by decide)).2.2⟩

/-! ## Lemmas about BM25 -/

theorem bm25SpecTermScore_of_tf_zero (st : BM25State) (t : String) (i : Nat)
    (h : tfCount st i t = 0) : bm25SpecTermScore st t i = 0 := by
  unfold bm25SpecTermScore
  by_cases hdf : docFreq st t = 0
  · rw [if_pos hdf]
  · rw [if_neg hdf, h]
    push_cast
    rw [zero_mul, mul_zero, zero_div]

theorem addTermScores_length (st : BM25State) (scores : List ℝ) (t : String) :
    (addTermScores st scores t).length = scores.length := by
  unfold addTermScores
  by_cases hdf : docFreq st t = 0
  · rw [if_pos hdf]
  · rw [if_neg hdf, List.length_mapIdx]

theorem addTermScores_getD (st : BM25State) (scores : List ℝ) (t : String) (i : Nat)
    (hl : st.tf.length = scores.length) :
    (addTermScores st scores t).getD i 0 =
      scores.getD i 0 + bm25SpecTermScore st t i := by
  unfold addTermScores
  by_cases hdf : docFreq st t = 0
  · rw [if_pos hdf]
    unfold bm25SpecTermScore
    rw [if_pos hdf, add_zero]
  · rw [if_neg hdf]
    by_cases hi : i < scores.length
    · rw [List.getD_eq_getElem?_getD, List.getElem?_mapIdx,
        List.getElem?_eq_getElem hi]
      simp only [Option.map_some', Option.getD_some]
      rw [List.getD_eq_getElem?_getD, List.getElem?_eq_getElem hi]
      simp only [Option.getD_some]
      by_cases htf : tfCount st i t = 0
      · rw [if_pos htf, bm25SpecTermScore_of_tf_zero st t i htf, add_zero]
      · rw [if_neg htf]
        unfold bm25SpecTermScore
        rw [if_neg hdf]
    · have hge : scores.length ≤ i := le_of_not_lt hi
      rw [List.getD_eq_default _ _ (by rw [List.length_mapIdx]; omega),
        List.getD_eq_default _ _ hge]
      have htf : tfCount st i t = 0 := by
        unfold tfCount
        rw [List.getD_eq_default _ _ (by omega)]
        rfl
      rw [bm25SpecTermScore_of_tf_zero st t i htf, add_zero]

theorem foldl_addTermScores_length (st : BM25State) :
    ∀ (terms : List String) (scores : List ℝ),
      (terms.foldl (addTermScores st) scores).length = scores.length := by
  intro terms
  induction terms with
  | nil => intro scores; rfl
  | cons t rest ih =>
    intro scores
    rw [List.foldl_cons, ih, addTermScores_length]

theorem foldl_addTermScores_getD (st : BM25State) :
    ∀ (terms : List String) (scores : List ℝ) (i : Nat),
      st.tf.length = scores.length →
      (terms.foldl (addTermScores st) scores).getD i 0 =
        scores.getD i 0 + ((terms.map fun t => bm25SpecTermScore st t i).sum) := by
  intro terms
  induction terms with
  | nil =>
    intro scores i _
    rw [List.foldl_nil, List.map_nil, List.sum_nil, add_zero]
  | cons t rest ih =>
    intro scores i hl
    rw [List.foldl_cons, ih _ i (by rw [addTermScores_length]; exact hl),
      addTermScores_getD st scores t i hl, List.map_cons, List.sum_cons]
    ring

theorem bm25ScoresList_getD (texts : List String) (query : String) (i : Nat) :
    (bm25ScoresList (bm25Fit texts) query).getD i 0 =
      bm25SpecScore (bm25Fit texts) query i := by
  unfold bm25ScoresList bm25SpecScore
  rw [foldl_addTermScores_getD _ _ _ i
    (by simp [bm25Fit, bm25FitSt, List.length_replicate])]
  have hrep : (List.replicate (bm25Fit texts).nDocs (0 : ℝ)).getD i 0 = 0 := by
    by_cases hi : i < (bm25Fit texts).nDocs
    · rw [List.getD_eq_getElem?_getD, List.getElem?_replicate, if_pos hi]
      rfl
    · exact List.getD_eq_default _ _ (by rw [List.length_replicate]; omega)
  rw [hrep, zero_add]

/-! ## Claim C10 — BM25 division safety -/

/-- C10: on any model produced by `BM25.fit`, whenever a query term is
present in the fitted document-frequency table (the only case in which the
per-chunk scoring division executes), some fitted text has a nonzero token
count, so the average document length is strictly positive, and for every
chunk in which the term occurs the scoring denominator
`freq + k1 * (1 - b + b * dl / avgdl)` is strictly positive — `search`
never divides by zero. -/
theorem bm25_division_safety (texts : List String) (term : String)
    (hdf : 0 < docFreq (bm25Fit texts) term) :
    0 < bm25AvgDl (bm25Fit texts) ∧
      ∀ i, 0 < tfCount (bm25Fit texts) i term →
        (0 : ℝ) < scoringDenominator (bm25Fit texts) i term := by
  have hex : ∃ doc ∈ (bm25Fit texts).tf, term ∈ doc := by
    unfold docFreq at hdf
    rcases List.length_pos.mp hdf with hne
    rcases List.exists_mem_of_ne_nil _ hne with ⟨doc, hdoc⟩
    rcases List.mem_filter.mp hdoc with ⟨hmem, hterm⟩
    exact ⟨doc, hmem, by simpa using hterm⟩
  rcases hex with ⟨doc, hdoc, hterm⟩
  have hdoclen : 1 ≤ doc.length := by
    cases doc with
    | nil => cases hterm
    | cons a r => simp
  have hlensum : 1 ≤ (bm25Fit texts).docLens.sum := by
    have hmem : doc.length ∈ (bm25Fit texts).docLens := by
      simp only [bm25Fit, bm25FitSt] at hdoc ⊢
      exact List.mem_map_of_mem List.length hdoc
    exact le_trans hdoclen (List.single_le_sum (fun x _ => Nat.zero_le x) _ hmem)
  have havg : 0 < bm25AvgDl (bm25Fit texts) := by
    unfold bm25AvgDl
    apply div_pos
    · exact_mod_cast hlensum
    · have : 1 ≤ max (bm25Fit texts).nDocs 1 := le_max_right _ _
      exact_mod_cast lt_of_lt_of_le Nat.zero_lt_one this
  refine ⟨havg, ?_⟩
  intro i htf
  unfold scoringDenominator
  have hk1 : ((bm25Fit texts).k1 : ℝ) = 3 / 2 := by norm_num [bm25Fit, bm25FitSt, bm25Init]
  have hb : ((bm25Fit texts).b : ℝ) = 3 / 4 := by norm_num [bm25Fit, bm25FitSt, bm25Init]
  have havgR : (0 : ℝ) < ((bm25AvgDl (bm25Fit texts) : ℚ) : ℝ) := by
    exact_mod_cast havg
  have hdl : (0 : ℝ) ≤ ((bm25Fit texts).docLens.getD i 0 : ℝ) := by positivity
  have hratio : (0 : ℝ) ≤ ((bm25Fit texts).docLens.getD i 0 : ℝ) /
      ((bm25AvgDl (bm25Fit texts) : ℚ) : ℝ) := div_nonneg hdl (le_of_lt havgR)
  have htfR : (1 : ℝ) ≤ (tfCount (bm25Fit texts) i term : ℝ) := by exact_mod_cast htf
  rw [hk1, hb, mul_div_assoc]
  linarith [hratio, htfR]

/-- Witness for C10 on the corpus `["cat dog"]` and the fitted term
`"dog"`, occurring in chunk 0. -/
theorem bm25_division_safety_witness :
    0 < bm25AvgDl (bm25Fit ["cat dog"]) ∧
      ((0 : ℝ) < scoringDenominator (bm25Fit ["cat dog"]) 0 "dog") :=
  ⟨(bm25_division_safety ["cat dog"] "dog" (by decide)).1,
   (bm25_division_safety ["cat dog"] "dog" (by decide)).2 0 (by decide)⟩

/-! ## Claim C5 — BM25 search contract -/

/-- C5: on any fitted corpus, `BM25.search(query, top_k)` returns at most
`top_k` pairs, ordered by descending score; every returned score is
strictly positive and equals the Okapi BM25 sum over the query's token
sequence — `idf(t) * tf(t,d) * (k1+1) / (tf(t,d) + k1*(1-b+b*|d|/avgdl))`
with `idf(t) = ln((N - df(t) + 0.5)/(df(t) + 0.5) + 1)`, `k1 = 1.5`,
`b = 0.75` — where query terms absent from the fitted vocabulary
contribute zero without error. -/
theorem bm25_search_contract (texts : List String) (query : String) (topK : Nat) :
    (bm25Search (bm25Fit texts) query topK).length ≤ topK ∧
      List.Pairwise (fun a b : Nat × ℝ => b.2 ≤ a.2)
        (bm25Search (bm25Fit texts) query topK) ∧
      ∀ p ∈ bm25Search (bm25Fit texts) query topK,
        0 < p.2 ∧ p.2 = bm25SpecScore (bm25Fit texts) query p.1 := by
  have hsearch : bm25Search (bm25Fit texts) query topK =
      ((insSort (fun a b : Nat × ℝ => decide (b.2 ≤ a.2))
        (bm25ScoresList (bm25Fit texts) query).enum).take topK).filter
          (fun p => decide (0 < p.2)) := rfl
  have htot : ∀ a b : Nat × ℝ,
      decide (b.2 ≤ a.2) = true ∨ decide (a.2 ≤ b.2) = true := by
    intro a b
    rcases le_total b.2 a.2 with h | h
    · exact Or.inl (decide_eq_true h)
    · exact Or.inr (decide_eq_true h)
  have htrans : ∀ a b c : Nat × ℝ, decide (b.2 ≤ a.2) = true →
      decide (c.2 ≤ b.2) = true → decide (c.2 ≤ a.2) = true := by
    intro a b c h1 h2
    exact decide_eq_true (le_trans (of_decide_eq_true h2) (of_decide_eq_true h1))
  refine ⟨?_, ?_, ?_⟩
  · rw [hsearch]
    exact le_trans (List.length_filter_le _ _) (List.length_take_le _ _)
  · rw [hsearch]
    have hpw := insSort_pairwise (fun a b : Nat × ℝ => decide (b.2 ≤ a.2)) htot htrans
      (bm25ScoresList (bm25Fit texts) query).enum
    have h1 := List.Pairwise.sublist (List.take_sublist topK _) hpw
    have h2 : List.Pairwise (fun a b : Nat × ℝ => decide (b.2 ≤ a.2) = true)
        (((insSort (fun a b : Nat × ℝ => decide (b.2 ≤ a.2))
          (bm25ScoresList (bm25Fit texts) query).enum).take topK).filter
            (fun p => decide (0 < p.2))) :=
      List.Pairwise.sublist (List.filter_sublist _) h1
    exact h2.imp (fun h => of_decide_eq_true h)
  · intro p hp
    rw [hsearch] at hp
    rcases List.mem_filter.mp hp with ⟨hmemTake, hpos⟩
    have hmemEnum : p ∈ (bm25ScoresList (bm25Fit texts) query).enum :=
      (mem_insSort _ _ _).mp ((List.take_sublist topK _).subset hmemTake)
    have hget := List.mem_enum_iff_getElem?.mp hmemEnum
    have hval : p.2 = (bm25ScoresList (bm25Fit texts) query).getD p.1 0 := by
      rw [List.getD_eq_getElem?_getD, hget]
      rfl
    refine ⟨of_decide_eq_true hpos, ?_⟩
    rw [hval, bm25ScoresList_getD]

/-- Witness for C5 on the two-chunk corpus `["cat dog", "dog dog dog"]`
with query `"dog"` and `top_k = 2`. -/
theorem bm25_search_contract_witness :
    (bm25Search (bm25Fit ["cat dog", "dog dog dog"]) "dog" 2).length ≤ 2 ∧
      List.Pairwise (fun a b : Nat × ℝ => b.2 ≤ a.2)
        (bm25Search (bm25Fit ["cat dog", "dog dog dog"]) "dog" 2) :=
  ⟨(bm25_search_contract ["cat dog", "dog dog dog"] "dog" 2).1,
   (bm25_search_contract ["cat dog", "dog dog dog"] "dog" 2).2.1⟩

/-! ## Lemmas about the index store dictionaries and removal phase -/

theorem dictSet_lookup_same [DecidableEq κ] (m : List (κ × β)) (k : κ) (v : β) :
    lookupFst (dictSet m k v) k = some v := by
  induction m with
  | nil => simp [dictSet, lookupFst]
  | cons p rest ih =>
    rcases p with ⟨k', v'⟩
    by_cases hk : k' = k
    · subst hk
      simp [dictSet, lookupFst]
    · simp [dictSet, lookupFst, hk, ih]

theorem dictSet_lookup_other [DecidableEq κ] (m : List (κ × β)) (k : κ) (v : β)
    (f : κ) (hf : f ≠ k) : lookupFst (dictSet m k v) f = lookupFst m f := by
  induction m with
  | nil => simp [dictSet, lookupFst, Ne.symm hf]
  | cons p rest ih =>
    rcases p with ⟨k', v'⟩
    by_cases hk : k' = k
    · subst hk
      simp [dictSet, lookupFst, Ne.symm hf]
    · simp [dictSet, lookupFst, hk, ih]

theorem filter_key_lookup [DecidableEq κ] (P : κ → Bool) (m : List (κ × β)) (f : κ) :
    lookupFst (m.filter fun p => !P p.1) f =
      if P f then none else lookupFst m f := by
  induction m with
  | nil => simp [lookupFst]
  | cons p rest ih =>
    rcases p with ⟨k', v'⟩
    by_cases hk : k' = f
    · subst hk
      by_cases hP : P k'
      · simp [List.filter_cons, hP, lookupFst, ih]
      · simp [List.filter_cons, hP, lookupFst]
    · by_cases hP : P k'
      · simp [List.filter_cons, hP, lookupFst, hk, ih]
      · simp [List.filter_cons, hP, lookupFst, hk, ih]

theorem rebuildManifestRanges_lookup_hash (chunks : List Chunk)
    (m : List (String × ManEntry)) (f : String) :
    (lookupFst (rebuildManifestRanges chunks m) f).map ManEntry.hash =
      (lookupFst m f).map ManEntry.hash := by
  unfold rebuildManifestRanges
  induction m with
  | nil => simp [lookupFst]
  | cons p rest ih =>
    rcases p with ⟨k', v'⟩
    by_cases hk : k' = f
    · subst hk
      cases hr : lookupFst (chunkRanges chunks) k' with
      | none => simp [List.map_cons, lookupFst, hr]
      | some se => simp [List.map_cons, lookupFst, hr]
    · cases hr : lookupFst (chunkRanges chunks) k' with
      | none => simp only [List.map_cons, hr, lookupFst, if_neg hk]; exact ih
      | some se => simp only [List.map_cons, hr, lookupFst, if_neg hk]; exact ih

theorem zip_self_filter (pred : α → Bool) (l : List α) :
    (((l.zip l).filter fun q => pred q.1).map (·.2)) = l.filter pred := by
  induction l with
  | nil => rfl
  | cons a rest ih =>
    rw [List.zip_cons_cons, List.filter_cons, List.filter_cons]
    by_cases hp : pred a
    · simp only [hp, if_pos, List.map_cons, ih]
    · simp only [hp, Bool.false_eq_true, if_neg, not_false_iff, ih]

theorem enum_keep_spec (pred : α → Bool) (l0 : List α) (e0 : List β) :
    ∀ (l : List α) (e : List β) (n : Nat),
      l = l0.drop n → e = e0.drop n → l0.length = e0.length →
      ((((List.enumFrom n l).filter fun ic => pred ic.2).map (·.1)).filterMap
          (e0.get? ·)) =
        ((l.zip e).filter fun q => pred q.1).map (·.2) := by
  intro l
  induction l with
  | nil => intro e n _ _ _; rfl
  | cons a rest ih =>
    intro e n hl he hlen
    have hlen' : (l0.drop n).length = (e0.drop n).length := by
      rw [List.length_drop, List.length_drop, hlen]
    cases e with
    | nil =>
      exfalso
      rw [← hl, ← he] at hlen'
      simp at hlen'
    | cons b e' =>
      have hget : e0.get? n = some b := by
        have h0 : (e0.drop n)[0]? = some b := by rw [← he]; simp
        rw [List.getElem?_drop] at h0
        simpa [List.get?_eq_getElem?] using h0
      have hl' : rest = l0.drop (n + 1) := by
        rw [← List.tail_drop, ← hl]
        rfl
      have he' : e' = e0.drop (n + 1) := by
        rw [← List.tail_drop, ← he]
        rfl
      rw [List.enumFrom_cons, List.filter_cons, List.zip_cons_cons, List.filter_cons]
      by_cases hp : pred a
      · rw [if_pos (by simpa using hp), if_pos (by simpa using hp), List.map_cons,
          List.map_cons, List.filterMap_cons]
        rw [hget]
        rw [ih e' (n + 1) hl' he' hlen]
      · rw [if_neg (by simpa using hp), if_neg (by simpa using hp)]
        exact ih e' (n + 1) hl' he' hlen

theorem reindexRemove_bm25 {E : Type} (s : IndexState E) (toRemove : List String) :
    (reindexRemove s toRemove).bm25 = s.bm25 := by
  unfold reindexRemove
  by_cases h0 : toRemove.isEmpty
  · rw [if_pos h0]
  · rw [if_neg h0]

theorem reindexRemove_chunks {E : Type} (s : IndexState E) (toRemove : List String) :
    (reindexRemove s toRemove).chunks =
      s.chunks.filter fun c => !(toRemove.contains c.filename) := by
  unfold reindexRemove
  by_cases h0 : toRemove.isEmpty
  · rw [if_pos h0, List.isEmpty_iff.mp h0]
    simp
  · rw [if_neg h0]
    have h : (((s.chunks.enum.filter fun ic => !(toRemove.contains ic.2.filename)).map
          (·.1)).filterMap (s.chunks.get? ·)) =
        ((s.chunks.zip s.chunks).filter fun q =>
          !(toRemove.contains q.1.filename)).map (·.2) :=
      enum_keep_spec (fun c : Chunk => !(toRemove.contains c.filename))
        s.chunks s.chunks s.chunks s.chunks 0 (List.drop_zero _).symm
        (List.drop_zero _).symm rfl
    dsimp only
    rw [h]
    exact zip_self_filter (fun c => !(toRemove.contains c.filename)) s.chunks

theorem reindexRemove_embeddings {E : Type} (s : IndexState E)
    (toRemove : List String) (hlen : s.chunks.length = s.embeddings.length) :
    (reindexRemove s toRemove).embeddings =
      ((s.chunks.zip s.embeddings).filter fun q =>
        !(toRemove.contains q.1.filename)).map (·.2) := by
  unfold reindexRemove
  by_cases h0 : toRemove.isEmpty
  · rw [if_pos h0, List.isEmpty_iff.mp h0]
    simp only [List.contains_nil, Bool.not_false, List.filter_true]
    exact (List.map_snd_zip _ _ (le_of_eq hlen.symm)).symm
  · rw [if_neg h0]
    have h : (((s.chunks.enum.filter fun ic => !(toRemove.contains ic.2.filename)).map
          (·.1)).filterMap (s.embeddings.get? ·)) =
        ((s.chunks.zip s.embeddings).filter fun q =>
          !(toRemove.contains q.1.filename)).map (·.2) :=
      enum_keep_spec (fun c : Chunk => !(toRemove.contains c.filename))
        s.chunks s.embeddings s.chunks s.embeddings 0 (List.drop_zero _).symm
        (List.drop_zero _).symm hlen
    dsimp only
    rw [h]

theorem reindexRemove_manifest {E : Type} (s : IndexState E) (toRemove : List String) :
    (reindexRemove s toRemove).manifest =
      s.manifest.filter fun p => !(toRemove.contains p.1) := by
  unfold reindexRemove
  by_cases h0 : toRemove.isEmpty
  · rw [if_pos h0, List.isEmpty_iff.mp h0]
    simp
  · rw [if_neg h0]

theorem reindexRemove_manifest_lookup {E : Type} (s : IndexState E)
    (toRemove : List String) (f : String) :
    lookupFst (reindexRemove s toRemove).manifest f =
      if toRemove.contains f then none else lookupFst s.manifest f := by
  rw [reindexRemove_manifest]
  exact filter_key_lookup (fun k => toRemove.contains k) s.manifest f

/-! ## Inversion of the addition phase of `reindex` -/

theorem except_bind_ok {ε α β : Type} (x : Except ε α) (f : α → Except ε β) (r : β)
    (h : x >>= f = Except.ok r) : ∃ a, x = Except.ok a ∧ f a = Except.ok r := by
  cases x with
  | error e => cases h
  | ok a => exact ⟨a, rfl, h⟩

theorem reindexAddStep_inv (hashFn parsePdf parseDocx : String → String)
    (d : List SrcFile) (acc : List Chunk × List (String × ManEntry) × List String)
    (fname : String) (acc' : List Chunk × List (String × ManEntry) × List String)
    (h : reindexAddStep hashFn parsePdf parseDocx d acc fname = Except.ok acc') :
    ∃ text hsh, loadForReindex parsePdf parseDocx d fname = Except.ok text ∧
      lookupFst (computeFileHashes hashFn d) fname = some hsh ∧
      acc' = (acc.1 ++ (chunkText text).mapIdx (fun i c => (⟨c, fname, i⟩ : Chunk)),
              dictSet acc.2.1 fname ⟨hsh, acc.1.length,
                (acc.1 ++ (chunkText text).mapIdx
                  (fun i c => (⟨c, fname, i⟩ : Chunk))).length⟩,
              acc.2.2 ++ chunkText text) := by
  unfold reindexAddStep at h
  rcases except_bind_ok _ _ _ h with ⟨text, htext, h⟩
  cases hlk' : lookupFst (computeFileHashes hashFn d) fname with
  | none =>
    rw [hlk'] at h
    simp only [Bind.bind, Except.bind] at h
    cases h
  | some v =>
    rw [hlk'] at h
    simp only [Bind.bind, Except.bind, pure, Except.pure] at h
    refine ⟨text, v, htext, rfl, ?_⟩
    cases h
    rfl

theorem reindexAddFold_spec (hashFn parsePdf parseDocx : String → String)
    (d : List SrcFile) :
    ∀ (names : List String)
      (acc acc' : List Chunk × List (String × ManEntry) × List String),
      names.Nodup →
      names.foldlM (reindexAddStep hashFn parsePdf parseDocx d) acc =
        Except.ok acc' →
      ∃ blocks : List (String × List String),
        blocks.map Prod.fst = names ∧
        (∀ b ∈ blocks, ∃ t, loadForReindex parsePdf parseDocx d b.1 = Except.ok t ∧
          b.2 = chunkText t) ∧
        acc'.1 = acc.1 ++ (blocks.flatMap fun b =>
          b.2.mapIdx fun i c => (⟨c, b.1, i⟩ : Chunk)) ∧
        acc'.2.2 = acc.2.2 ++ (blocks.flatMap fun b => b.2) ∧
        (∀ f, f ∉ names → lookupFst acc'.2.1 f = lookupFst acc.2.1 f) ∧
        (∀ b ∈ blocks, ∃ e : ManEntry, lookupFst acc'.2.1 b.1 = some e ∧
          lookupFst (computeFileHashes hashFn d) b.1 = some e.hash ∧
          (b.2 = [] → e.chunk_start = e.chunk_end)) := by
  intro names
  induction names with
  | nil =>
    intro acc acc' _ h
    rw [List.foldlM_nil] at h
    have h' : Except.ok acc = Except.ok acc' := h
    cases h'
    exact ⟨[], rfl, fun b hb => absurd hb (List.not_mem_nil b),
      by simp, by simp, fun f _ => rfl, fun b hb => absurd hb (List.not_mem_nil b)⟩
  | cons n rest ih =>
    intro acc acc' hnd h
    rcases List.nodup_cons.mp hnd with ⟨hn, hndrest⟩
    rw [List.foldlM_cons] at h
    rcases except_bind_ok _ _ _ h with ⟨acc1, hstep, hfold⟩
    rcases reindexAddStep_inv hashFn parsePdf parseDocx d acc n acc1 hstep
      with ⟨text, hsh, hload, hlk, hacc1⟩
    rcases ih acc1 acc' hndrest hfold with
      ⟨blocks, hnames, hloadb, hchunks, htexts, hother, hentries⟩
    refine ⟨(n, chunkText text) :: blocks, ?_, ?_, ?_, ?_, ?_, ?_⟩
    · rw [List.map_cons, hnames]
    · intro b hb
      rcases List.mem_cons.mp hb with rfl | hb
      · exact ⟨text, hload, rfl⟩
      · exact hloadb b hb
    · rw [hchunks, hacc1, List.flatMap_cons, ← List.append_assoc]
    · rw [htexts, hacc1, List.flatMap_cons, ← List.append_assoc]
    · intro f hf
      have hfr : f ∉ rest := fun hmem => hf (List.mem_cons_of_mem n hmem)
      have hfn : f ≠ n := fun he => hf (he ▸ List.mem_cons_self n rest)
      rw [hother f hfr, hacc1]
      exact dictSet_lookup_other _ _ _ f hfn
    · intro b hb
      rcases List.mem_cons.mp hb with rfl | hb
      · have hnr : (n, chunkText text).1 ∉ rest := hn
        refine ⟨⟨hsh, acc.1.length,
          (acc.1 ++ (chunkText text).mapIdx
            (fun i c => (⟨c, n, i⟩ : Chunk))).length⟩, ?_, ?_, ?_⟩
        · rw [hother _ hnr, hacc1]
          exact dictSet_lookup_same _ _ _
        · exact hlk
        · intro hempty
          simp only at hempty ⊢
          rw [hempty]
          simp
      · exact hentries b hb

theorem reindexAdd_spec {E : Type} (embed : String → E)
    (hashFn parsePdf parseDocx : String → String) (s : IndexState E)
    (d : List SrcFile) (toAdd : List String) (hnd : toAdd.Nodup)
    (s' : IndexState E)
    (h : reindexAdd embed hashFn parsePdf parseDocx s d toAdd = Except.ok s') :
    ∃ blocks : List (String × List String),
      blocks.map Prod.fst = toAdd ∧
      (∀ b ∈ blocks, ∃ t, loadForReindex parsePdf parseDocx d b.1 = Except.ok t ∧
        b.2 = chunkText t) ∧
      s'.chunks = s.chunks ++ (blocks.flatMap fun b =>
        b.2.mapIdx fun i c => (⟨c, b.1, i⟩ : Chunk)) ∧
      s'.embeddings = s.embeddings ++ ((blocks.flatMap fun b => b.2).map embed) ∧
      s'.bm25 = s.bm25 ∧
      (∀ f, f ∉ toAdd → lookupFst s'.manifest f = lookupFst s.manifest f) ∧
      (∀ b ∈ blocks, ∃ e : ManEntry, lookupFst s'.manifest b.1 = some e ∧
        lookupFst (computeFileHashes hashFn d) b.1 = some e.hash ∧
        (b.2 = [] → e.chunk_start = e.chunk_end)) := by
  unfold reindexAdd at h
  by_cases h0 : toAdd.isEmpty
  · rw [if_pos h0] at h
    have h' : Except.ok s = Except.ok s' := h
    cases h'
    rw [List.isEmpty_iff.mp h0]
    exact ⟨[], rfl, fun b hb => absurd hb (List.not_mem_nil b),
      by simp, by simp, rfl, fun f _ => rfl, fun b hb => absurd hb (List.not_mem_nil b)⟩
  · rw [if_neg h0] at h
    simp only [] at h
    rcases except_bind_ok _ _ _ h with ⟨res, hfold, hpure⟩
    rcases reindexAddFold_spec hashFn parsePdf parseDocx d toAdd
      (s.chunks, s.manifest, []) res hnd hfold with
      ⟨blocks, hnames, hloadb, hchunks, htexts, hother, hentries⟩
    have hpure' : (Except.ok { s with
        chunks := res.1,
        manifest := res.2.1,
        embeddings := s.embeddings ++ res.2.2.map embed } :
          Except String (IndexState E)) = Except.ok s' := hpure
    cases hpure'
    refine ⟨blocks, hnames, hloadb, ?_, ?_, rfl, ?_, ?_⟩
    · simpa using hchunks
    · simp only []
      rw [htexts]
      simp
    · intro f hf
      simpa using hother f hf
    · intro b hb
      simpa using hentries b hb

/-! ## The range scan of `_rebuild_manifest_ranges` on grouped chunk lists -/

theorem updateRange_not_mem (f : String) (i : Nat) :
    ∀ acc : List (String × Nat × Nat), f ∉ keysOf acc →
      updateRange acc f i = acc ++ [(f, i, i + 1)] := by
  intro acc
  induction acc with
  | nil => intro _; rfl
  | cons p rest ih =>
    intro h
    rcases p with ⟨g, se⟩
    simp only [keysOf, List.map_cons, List.mem_cons, not_or] at h
    show (if g = f then (g, se.1, i + 1) :: rest
      else (g, se) :: updateRange rest f i) = _
    rw [if_neg (fun he => h.1 he.symm), ih h.2]
    rfl

theorem updateRange_append_last (f : String) (i s e : Nat) :
    ∀ acc : List (String × Nat × Nat), f ∉ keysOf acc →
      updateRange (acc ++ [(f, s, e)]) f i = acc ++ [(f, s, i + 1)] := by
  intro acc
  induction acc with
  | nil =>
    intro _
    show (if f = f then (f, s, i + 1) :: [] else _) = _
    rw [if_pos rfl]
    rfl
  | cons p rest ih =>
    intro h
    rcases p with ⟨g, se'⟩
    simp only [keysOf, List.map_cons, List.mem_cons, not_or] at h
    show (if g = f then (g, se'.1, i + 1) :: (rest ++ [(f, s, e)])
      else (g, se') :: updateRange (rest ++ [(f, s, e)]) f i) = _
    rw [if_neg (fun he => h.1 he.symm), ih h.2]
    rfl

theorem rangesAux_append :
    ∀ (xs ys : List Chunk) (i : Nat) (acc : List (String × Nat × Nat)),
      rangesAux (xs ++ ys) i acc = rangesAux ys (i + xs.length) (rangesAux xs i acc) := by
  intro xs
  induction xs with
  | nil => intro ys i acc; simp [rangesAux]
  | cons c xs ih =>
    intro ys i acc
    show rangesAux (xs ++ ys) (i + 1) (updateRange acc c.filename i) =
      rangesAux ys (i + (c :: xs).length)
        (rangesAux xs (i + 1) (updateRange acc c.filename i))
    rw [ih, List.length_cons, show i + (xs.length + 1) = i + 1 + xs.length from by omega]

theorem rangesAux_uniform (f : String) :
    ∀ cs : List Chunk, (∀ c ∈ cs, c.filename = f) →
    ∀ (i s : Nat) (acc : List (String × Nat × Nat)), f ∉ keysOf acc →
      rangesAux cs i (acc ++ [(f, s, i)]) = acc ++ [(f, s, i + cs.length)] := by
  intro cs
  induction cs with
  | nil => intro _ i s acc _; rfl
  | cons c cs ih =>
    intro huni i s acc hacc
    show rangesAux cs (i + 1) (updateRange (acc ++ [(f, s, i)]) c.filename i) = _
    rw [huni c (List.mem_cons_self c cs), updateRange_append_last f i s i acc hacc,
      ih (fun c' hc' => huni c' (List.mem_cons_of_mem c hc')) (i + 1) s acc hacc,
      List.length_cons, show i + 1 + cs.length = i + (cs.length + 1) from by omega]

theorem rangesAux_grouped :
    ∀ (blocks : List (String × List Chunk)) (i : Nat)
      (acc : List (String × Nat × Nat)),
      (∀ b ∈ blocks, b.2 ≠ [] ∧ ∀ c ∈ b.2, c.filename = b.1) →
      (∀ b ∈ blocks, b.1 ∉ keysOf acc) →
      (blocks.map Prod.fst).Nodup →
      rangesAux (blocks.flatMap Prod.snd) i acc = acc ++ blockIntervals blocks i := by
  intro blocks
  induction blocks with
  | nil => intro i acc _ _ _; simp [blockIntervals, rangesAux]
  | cons b bs ih =>
    intro i acc huni hacc hnd
    rcases huni b (List.mem_cons_self b bs) with ⟨hne, hbuni⟩
    rw [List.map_cons] at hnd
    rcases List.nodup_cons.mp hnd with ⟨hnotin, hndbs⟩
    rw [List.flatMap_cons, rangesAux_append]
    rcases List.exists_cons_of_ne_nil hne with ⟨c, cs, hcs⟩
    have hstep : rangesAux b.2 i acc = acc ++ [(b.1, i, i + b.2.length)] := by
      rw [hcs]
      show rangesAux cs (i + 1) (updateRange acc c.filename i) =
        acc ++ [(b.1, i, i + (c :: cs).length)]
      rw [hbuni c (by rw [hcs]; exact List.mem_cons_self c cs),
        updateRange_not_mem b.1 i acc (hacc b (List.mem_cons_self b bs))]
      rw [rangesAux_uniform b.1 cs
        (fun c' hc' => hbuni c' (by rw [hcs]; exact List.mem_cons_of_mem c hc'))
        (i + 1) i acc (hacc b (List.mem_cons_self b bs)),
        List.length_cons, show i + 1 + cs.length = i + (cs.length + 1) from by omega]
    rw [hstep, ih (i + b.2.length) (acc ++ [(b.1, i, i + b.2.length)])
      (fun b' hb' => huni b' (List.mem_cons_of_mem b hb'))
      (fun b' hb' => by
        simp only [keysOf, List.map_append, List.map_cons, List.map_nil,
          List.mem_append, List.mem_cons, List.not_mem_nil, or_false, not_or]
        exact ⟨hacc b' (List.mem_cons_of_mem b hb'),
          fun he => hnotin (he ▸ List.mem_map_of_mem Prod.fst hb')⟩)
      hndbs, List.append_assoc]
    rfl

theorem chunkRanges_grouped (blocks : List (String × List Chunk))
    (huni : ∀ b ∈ blocks, b.2 ≠ [] ∧ ∀ c ∈ b.2, c.filename = b.1)
    (hnd : (blocks.map Prod.fst).Nodup) :
    chunkRanges (blocks.flatMap Prod.snd) = blockIntervals blocks 0 := by
  unfold chunkRanges
  rw [rangesAux_grouped blocks 0 [] huni (fun b _ => by simp [keysOf]) hnd]
  rfl

theorem keysOf_blockIntervals :
    ∀ (blocks : List (String × List Chunk)) (i : Nat),
      keysOf (blockIntervals blocks i) = blocks.map Prod.fst := by
  intro blocks
  induction blocks with
  | nil => intro i; rfl
  | cons b bs ih =>
    intro i
    show b.1 :: keysOf (blockIntervals bs (i + b.2.length)) = _
    rw [ih, List.map_cons]

theorem blockIntervals_lb :
    ∀ (blocks : List (String × List Chunk)) (i : Nat) (q : String × Nat × Nat),
      q ∈ blockIntervals blocks i → i ≤ q.2.1 := by
  intro blocks
  induction blocks with
  | nil => intro i q hq; cases hq
  | cons b bs ih =>
    intro i q hq
    rcases List.mem_cons.mp hq with rfl | hq
    · exact le_refl i
    · exact le_trans (Nat.le_add_right i b.2.length) (ih (i + b.2.length) q hq)

theorem blockIntervals_exact :
    ∀ (blocks : List (String × List Chunk)) (i j : Nat),
      (blocks.map Prod.fst).Nodup →
      i ≤ j → j < i + (blocks.flatMap Prod.snd).length →
      ∃ f se, lookupFst (blockIntervals blocks i) f = some se ∧
        se.1 ≤ j ∧ j < se.2 ∧
        ∀ g se', lookupFst (blockIntervals blocks i) g = some se' →
          se'.1 ≤ j → j < se'.2 → g = f := by
  intro blocks
  induction blocks with
  | nil =>
    intro i j _ hij hlt
    simp only [List.flatMap_nil, List.length_nil, Nat.add_zero] at hlt
    exact absurd hlt (by omega)
  | cons b bs ih =>
    intro i j hnd hij hlt
    rw [List.map_cons] at hnd
    rcases List.nodup_cons.mp hnd with ⟨hnotin, hndbs⟩
    by_cases hj : j < i + b.2.length
    · refine ⟨b.1, (i, i + b.2.length), ?_, hij, hj, ?_⟩
      · show (if b.1 = b.1 then some (i, i + b.2.length) else _) = _
        rw [if_pos rfl]
      · intro g se' hlk hle hlt'
        by_cases hg : b.1 = g
        · exact hg.symm
        · have hlk' : lookupFst (blockIntervals bs (i + b.2.length)) g = some se' := by
            rw [show lookupFst (blockIntervals (b :: bs) i) g =
              (if b.1 = g then some (i, i + b.2.length)
                else lookupFst (blockIntervals bs (i + b.2.length)) g) from rfl,
              if_neg hg] at hlk
            exact hlk
          have hmem := lookupFst_mem _ _ _ hlk'
          have := blockIntervals_lb bs (i + b.2.length) (g, se') hmem
          simp only [] at this
          omega
    · have hlt2 : j < (i + b.2.length) + (bs.flatMap Prod.snd).length := by
        rw [List.flatMap_cons, List.length_append] at hlt
        omega
      rcases ih (i + b.2.length) j hndbs (by omega) hlt2 with
        ⟨f, se, hlk, hle, hltse, huniq⟩
      have hbf : b.1 ≠ f := by
        intro he
        have hfk : f ∈ keysOf (blockIntervals bs (i + b.2.length)) :=
          (lookupFst_keys _ f).mpr ⟨se, hlk⟩
        rw [keysOf_blockIntervals] at hfk
        exact hnotin (he ▸ hfk)
      refine ⟨f, se, ?_, hle, hltse, ?_⟩
      · show (if b.1 = f then some (i, i + b.2.length) else _) = _
        rw [if_neg hbf]
        exact hlk
      · intro g se' hlkg hleg hltg
        by_cases hg : b.1 = g
        · rw [show lookupFst (blockIntervals (b :: bs) i) g =
            (if b.1 = g then some (i, i + b.2.length)
              else lookupFst (blockIntervals bs (i + b.2.length)) g) from rfl,
            if_pos hg] at hlkg
          cases hlkg
          omega
        · rw [show lookupFst (blockIntervals (b :: bs) i) g =
            (if b.1 = g then some (i, i + b.2.length)
              else lookupFst (blockIntervals bs (i + b.2.length)) g) from rfl,
            if_neg hg] at hlkg
          exact huniq g se' hlkg hleg hltg

/-! ## Zip, filter and association-list bookkeeping for `reindex` -/

theorem zip_filter_fst {α β : Type} (p : α → Bool) :
    ∀ (l : List α) (e : List β), l.length = e.length →
      (((l.zip e).filter fun q => p q.1).map (·.1)) = l.filter p := by
  intro l
  induction l with
  | nil => intro e _; rfl
  | cons a l ih =>
    intro e hlen
    cases e with
    | nil => simp at hlen
    | cons b e =>
      rw [List.zip_cons_cons, List.filter_cons, List.filter_cons]
      by_cases hp : p a
      · simp only [hp, if_pos, List.map_cons]
        rw [ih e (by simpa using hlen)]
      · simp only [hp, Bool.false_eq_true, if_neg, not_false_iff]
        exact ih e (by simpa using hlen)

theorem zip_fst_snd {α β : Type} :
    ∀ l : List (α × β), (l.map (·.1)).zip (l.map (·.2)) = l := by
  intro l
  induction l with
  | nil => rfl
  | cons q l ih =>
    rw [List.map_cons, List.map_cons, List.zip_cons_cons, ih]

theorem flatMap_filter_uniform (p : String → Bool) :
    ∀ blocks : List (String × List Chunk),
      (∀ b ∈ blocks, ∀ c ∈ b.2, c.filename = b.1) →
      ((blocks.flatMap Prod.snd).filter fun c => p c.filename) =
        (blocks.filter fun b => p b.1).flatMap Prod.snd := by
  intro blocks
  induction blocks with
  | nil => intro _; rfl
  | cons b bs ih =>
    intro huni
    rw [List.flatMap_cons, List.filter_append, List.filter_cons]
    by_cases hp : p b.1
    · have hb : b.2.filter (fun c => p c.filename) = b.2 :=
        List.filter_eq_self.mpr fun c hc => by
          rw [huni b (List.mem_cons_self b bs) c hc]; exact hp
      simp only [hp, if_pos, List.flatMap_cons]
      rw [hb, ih fun b' hb' => huni b' (List.mem_cons_of_mem b hb')]
    · have hb : b.2.filter (fun c => p c.filename) = [] :=
        List.filter_eq_nil_iff.mpr fun c hc => by
          rw [huni b (List.mem_cons_self b bs) c hc]
          simp [hp]
      simp only [hp, Bool.false_eq_true, if_neg, not_false_iff]
      rw [hb, List.nil_append, ih fun b' hb' => huni b' (List.mem_cons_of_mem b hb')]

theorem flatMap_filter_nonempty :
    ∀ blocks : List (String × List Chunk),
      (blocks.filter fun b => !b.2.isEmpty).flatMap Prod.snd =
        blocks.flatMap Prod.snd := by
  intro blocks
  induction blocks with
  | nil => rfl
  | cons b bs ih =>
    rw [List.filter_cons, List.flatMap_cons]
    by_cases hb : b.2.isEmpty
    · simp only [hb, Bool.not_true, Bool.false_eq_true, if_neg, not_false_iff]
      rw [ih, List.isEmpty_iff.mp hb, List.nil_append]
    · simp only [hb, Bool.not_false, if_pos, List.flatMap_cons]
      rw [ih]

theorem flatMap_map_snd {γ : Type} (g : γ → String × List Chunk) :
    ∀ l : List γ, (l.map g).flatMap Prod.snd = l.flatMap fun x => (g x).2 := by
  intro l
  induction l with
  | nil => rfl
  | cons a l ih =>
    rw [List.map_cons, List.flatMap_cons, List.flatMap_cons, ih]

theorem filter_flatMap_chunks {γ : Type} (p : Chunk → Bool) (g : γ → List Chunk) :
    ∀ l : List γ, ((l.flatMap g).filter p) = l.flatMap fun x => (g x).filter p := by
  intro l
  induction l with
  | nil => rfl
  | cons a l ih =>
    rw [List.flatMap_cons, List.flatMap_cons, List.filter_append, ih]

theorem mapIdx_filename (g : String) (l : List String) :
    ∀ c ∈ l.mapIdx fun i t => (⟨t, g, i⟩ : Chunk), c.filename = g := by
  intro c hc
  rw [List.mapIdx_eq_enum_map] at hc
  rcases List.mem_map.mp hc with ⟨q, _, he⟩
  rw [← he]
  rfl

theorem mem_keys_dictSet [DecidableEq κ] (k : κ) (v : β) (f : κ) :
    ∀ m : List (κ × β), f ∈ keysOf (dictSet m k v) ↔ f ∈ keysOf m ∨ f = k := by
  intro m
  induction m with
  | nil => simp [dictSet, keysOf]
  | cons p rest ih =>
    rcases p with ⟨k', v'⟩
    by_cases hk : k' = k
    · rw [show dictSet ((k', v') :: rest) k v = (k, v) :: rest from by
        simp [dictSet, hk]]
      simp only [keysOf, List.map_cons, List.mem_cons]
      constructor
      · rintro (rfl | hf)
        · exact Or.inr rfl
        · exact Or.inl (Or.inr hf)
      · rintro ((rfl | hf) | rfl)
        · exact Or.inl hk
        · exact Or.inr hf
        · exact Or.inl rfl
    · rw [show dictSet ((k', v') :: rest) k v = (k', v') :: dictSet rest k v from by
        simp [dictSet, hk]]
      simp only [keysOf, List.map_cons, List.mem_cons]
      constructor
      · rintro (rfl | hf)
        · exact Or.inl (Or.inl rfl)
        · rcases ih.mp hf with h | h
          · exact Or.inl (Or.inr h)
          · exact Or.inr h
      · rintro ((rfl | hf) | rfl)
        · exact Or.inl rfl
        · exact Or.inr (ih.mpr (Or.inl hf))
        · exact Or.inr (ih.mpr (Or.inr rfl))

theorem dictSet_keys_nodup [DecidableEq κ] (k : κ) (v : β) :
    ∀ m : List (κ × β), (keysOf m).Nodup → (keysOf (dictSet m k v)).Nodup := by
  intro m
  induction m with
  | nil => intro _; simp [dictSet, keysOf]
  | cons p rest ih =>
    intro hnd
    rcases p with ⟨k', v'⟩
    simp only [keysOf, List.map_cons, List.nodup_cons] at hnd
    by_cases hk : k' = k
    · rw [show dictSet ((k', v') :: rest) k v = (k, v) :: rest from by
        simp [dictSet, hk]]
      simp only [keysOf, List.map_cons, List.nodup_cons]
      exact ⟨hk ▸ hnd.1, hnd.2⟩
    · rw [show dictSet ((k', v') :: rest) k v = (k', v') :: dictSet rest k v from by
        simp [dictSet, hk]]
      simp only [keysOf, List.map_cons, List.nodup_cons]
      refine ⟨fun hmem => ?_, ih hnd.2⟩
      rcases (mem_keys_dictSet k v k' rest).mp hmem with hf | hf
      · exact hnd.1 hf
      · exact hk hf

theorem keysOf_rebuildManifestRanges (ch : List Chunk)
    (m : List (String × ManEntry)) :
    keysOf (rebuildManifestRanges ch m) = keysOf m := by
  unfold rebuildManifestRanges keysOf
  rw [List.map_map]
  refine List.map_congr_left ?_
  intro p _
  cases h : lookupFst (chunkRanges ch) p.1 with
  | none => simp [h]
  | some se => simp [h]

theorem filter_length_one_key [DecidableEq κ] :
    ∀ m : List (κ × β), (keysOf m).Nodup →
      ∀ (Q : κ × β → Bool) (f : κ), f ∈ keysOf m →
        (∀ p ∈ m, Q p = true ↔ p.1 = f) →
        (m.filter Q).length = 1 := by
  intro m
  induction m with
  | nil => intro _ Q f hf _; simp [keysOf] at hf
  | cons p rest ih =>
    intro hnd Q f hf hQ
    simp only [keysOf, List.map_cons, List.nodup_cons] at hnd
    by_cases hpf : p.1 = f
    · rw [List.filter_cons_of_pos ((hQ p (List.mem_cons_self p rest)).mpr hpf)]
      have hrest : rest.filter Q = [] := by
        refine List.filter_eq_nil_iff.mpr fun q hq hQq => ?_
        have hqf : q.1 = f := (hQ q (List.mem_cons_of_mem p hq)).mp hQq
        refine hnd.1 ?_
        rw [hpf, ← hqf]
        exact List.mem_map_of_mem (fun x => x.1) hq
      rw [hrest]
      rfl
    · have hQp : ¬ Q p = true := fun hQp => hpf ((hQ p (List.mem_cons_self p rest)).mp hQp)
      rw [List.filter_cons_of_neg hQp]
      refine ih hnd.2 Q f ?_ fun q hq => hQ q (List.mem_cons_of_mem p hq)
      simp only [keysOf, List.map_cons, List.mem_cons] at hf
      rcases hf with hf | hf
      · exact absurd hf.symm hpf
      · exact hf

theorem reindexAddFold_keys_nodup (hashFn parsePdf parseDocx : String → String)
    (d : List SrcFile) :
    ∀ (names : List String)
      (acc acc' : List Chunk × List (String × ManEntry) × List String),
      names.foldlM (reindexAddStep hashFn parsePdf parseDocx d) acc =
        Except.ok acc' →
      (keysOf acc.2.1).Nodup → (keysOf acc'.2.1).Nodup := by
  intro names
  induction names with
  | nil =>
    intro acc acc' h hnd
    rw [List.foldlM_nil] at h
    have h' : Except.ok acc = Except.ok acc' := h
    cases h'
    exact hnd
  | cons n rest ih =>
    intro acc acc' h hnd
    rw [List.foldlM_cons] at h
    rcases except_bind_ok _ _ _ h with ⟨acc1, hstep, hfold⟩
    rcases reindexAddStep_inv hashFn parsePdf parseDocx d acc n acc1 hstep
      with ⟨text, hsh, _, _, hacc1⟩
    refine ih acc1 acc' hfold ?_
    rw [hacc1]
    exact dictSet_keys_nodup n _ acc.2.1 hnd

theorem reindexAdd_keys_nodup {E : Type} (embed : String → E)
    (hashFn parsePdf parseDocx : String → String) (s : IndexState E)
    (d : List SrcFile) (toAdd : List String) (s' : IndexState E)
    (h : reindexAdd embed hashFn parsePdf parseDocx s d toAdd = Except.ok s')
    (hnd : (keysOf s.manifest).Nodup) : (keysOf s'.manifest).Nodup := by
  unfold reindexAdd at h
  by_cases h0 : toAdd.isEmpty
  · rw [if_pos h0] at h
    have h' : Except.ok s = Except.ok s' := h
    cases h'
    exact hnd
  · rw [if_neg h0] at h
    simp only [] at h
    rcases except_bind_ok _ _ _ h with ⟨res, hfold, hpure⟩
    have hpure' : (Except.ok { s with
        chunks := res.1,
        manifest := res.2.1,
        embeddings := s.embeddings ++ res.2.2.map embed } :
          Except String (IndexState E)) = Except.ok s' := hpure
    cases hpure'
    exact reindexAddFold_keys_nodup hashFn parsePdf parseDocx d toAdd
      (s.chunks, s.manifest, []) res hfold hnd

theorem contains_iff_mem {α' : Type} [DecidableEq α'] (l : List α') (a : α') :
    l.contains a = true ↔ a ∈ l := List.elem_iff

theorem flatMap_filter_eq_block (f : String) :
    ∀ blocks : List (String × List String), (blocks.map Prod.fst).Nodup →
      ∀ b0 ∈ blocks, b0.1 = f →
        ((blocks.flatMap fun b => b.2.mapIdx fun i c => (⟨c, b.1, i⟩ : Chunk)).filter
          fun c => c.filename = f) = b0.2.mapIdx fun i c => (⟨c, f, i⟩ : Chunk) := by
  intro blocks
  induction blocks with
  | nil => intro _ b0 hb0 _; cases hb0
  | cons b bs ih =>
    intro hnd b0 hb0 hb0f
    rw [List.map_cons] at hnd
    rcases List.nodup_cons.mp hnd with ⟨hnotin, hndbs⟩
    rw [List.flatMap_cons, List.filter_append]
    rcases List.mem_cons.mp hb0 with rfl | hb0tail
    · have hhead : ((b0.2.mapIdx fun i c => (⟨c, b0.1, i⟩ : Chunk)).filter
          fun c => c.filename = f) = b0.2.mapIdx fun i c => (⟨c, f, i⟩ : Chunk) := by
        rw [hb0f]
        refine List.filter_eq_self.mpr fun c hc => ?_
        rw [mapIdx_filename f b0.2 c hc]
        simp
      have htail : ((bs.flatMap fun b => b.2.mapIdx fun i c => (⟨c, b.1, i⟩ : Chunk)).filter
          fun c => c.filename = f) = [] := by
        refine List.filter_eq_nil_iff.mpr fun c hc => ?_
        rcases List.mem_flatMap.mp hc with ⟨b', hb', hcb'⟩
        rw [mapIdx_filename b'.1 b'.2 c hcb']
        intro hdec
        have hbf : b'.1 = f := of_decide_eq_true hdec
        have h1 : b'.1 ∈ bs.map Prod.fst := List.mem_map_of_mem Prod.fst hb'
        rw [hbf, ← hb0f] at h1
        exact hnotin h1
      rw [hhead, htail, List.append_nil]
    · have hbf : b.1 ≠ f := by
        intro he
        have h1 : b0.1 ∈ bs.map Prod.fst := List.mem_map_of_mem Prod.fst hb0tail
        rw [hb0f, ← he] at h1
        exact hnotin h1
      have hhead : ((b.2.mapIdx fun i c => (⟨c, b.1, i⟩ : Chunk)).filter
          fun c => c.filename = f) = [] := by
        refine List.filter_eq_nil_iff.mpr fun c hc => ?_
        rw [mapIdx_filename b.1 b.2 c hc]
        intro hdec
        exact hbf (of_decide_eq_true hdec)
      rw [hhead, List.nil_append]
      exact ih hndbs b0 hb0tail hb0f

/-! ## Claim C7 — reindex idempotence -/

/-- C7: if `reindex` completes and the on-disk files are unchanged, a
second `reindex` call is a no-op: it returns the state of the first call
unchanged — chunks, manifest, embeddings and BM25 state are all
identical. -/
theorem reindex_idempotent {E : Type} (embed : String → E)
    (hashFn parsePdf parseDocx : String → String) (s : IndexState E)
    (d : List SrcFile) (s' : IndexState E)
    (h : reindex embed hashFn parsePdf parseDocx s d = Except.ok s') :
    reindex embed hashFn parsePdf parseDocx s' d = Except.ok s' := by
  unfold reindex at h
  rcases hneq : needsReindex hashFn s d with ⟨needs, added, changed, removed⟩
  rw [hneq] at h
  simp only [] at h
  cases needs with
  | false =>
    simp only [Bool.not_false, if_pos] at h
    have h' : Except.ok s = Except.ok s' := h
    cases h'
    unfold reindex
    rw [hneq]
    simp only [Bool.not_false, if_pos]
    rfl
  | true =>
    simp only [Bool.not_true, Bool.false_eq_true, if_neg, not_false_iff] at h
    rcases except_bind_ok _ _ _ h with ⟨s2, hadd, hpure⟩
    have hs' : ({ s2 with
        bm25 := bm25FitSt s2.bm25 (s2.chunks.map (·.text)),
        manifest := rebuildManifestRanges s2.chunks s2.manifest } : IndexState E)
          = s' := Except.ok.inj hpure
    have hndAdd : (insSort strLe ((added ++ changed).dedup)).Nodup :=
      insSort_nodup _ _ (List.nodup_dedup _)
    rcases reindexAdd_spec embed hashFn parsePdf parseDocx
      (reindexRemove s ((removed ++ changed).dedup)) d
      (insSort strLe ((added ++ changed).dedup)) hndAdd s2 hadd with
      ⟨blocks, hnames, _, _, _, _, hother, hentries⟩
    -- membership translations for the diff lists of the first call
    have hmemAdd : ∀ f, f ∈ insSort strLe ((added ++ changed).dedup) ↔
        f ∈ added ∨ f ∈ changed := by
      intro f
      rw [mem_insSort, List.mem_dedup, List.mem_append]
    have hmemRem : ∀ f, f ∈ (removed ++ changed).dedup ↔
        f ∈ removed ∨ f ∈ changed := by
      intro f
      rw [List.mem_dedup, List.mem_append]
    have haddc : (needsReindex hashFn s d).2.1 = added := by rw [hneq]
    have hchgc : (needsReindex hashFn s d).2.2.1 = changed := by rw [hneq]
    have hremc : (needsReindex hashFn s d).2.2.2 = removed := by rw [hneq]
    -- the hash view of the final manifest agrees with s2's
    have hs'hash : ∀ f, (lookupFst s'.manifest f).map ManEntry.hash =
        (lookupFst s2.manifest f).map ManEntry.hash := by
      intro f
      rw [← hs']
      exact rebuildManifestRanges_lookup_hash s2.chunks s2.manifest f
    -- per-filename description of the final manifest's hash view
    have hfinal : ∀ f,
        (f ∈ added ∨ f ∈ changed →
          (lookupFst s'.manifest f).map ManEntry.hash =
            lookupFst (computeFileHashes hashFn d) f) ∧
        (¬(f ∈ added ∨ f ∈ changed) → f ∈ removed →
          lookupFst s'.manifest f = none) ∧
        (¬(f ∈ added ∨ f ∈ changed) → f ∉ removed →
          (lookupFst s'.manifest f).map ManEntry.hash =
            (lookupFst s.manifest f).map ManEntry.hash) := by
      intro f
      refine ⟨?_, ?_, ?_⟩
      · intro hf
        have hfadd : f ∈ insSort strLe ((added ++ changed).dedup) := (hmemAdd f).mpr hf
        have hfblk : f ∈ blocks.map Prod.fst := by rw [hnames]; exact hfadd
        rcases List.mem_map.mp hfblk with ⟨b, hb, rfl⟩
        rcases hentries b hb with ⟨e, he, hhash, _⟩
        rw [hs'hash, he, hhash]
        rfl
      · intro hf hrem
        have hnotadd : f ∉ insSort strLe ((added ++ changed).dedup) := by
          rw [hmemAdd f]
          exact hf
        have h2 := hother f hnotadd
        have h1 : lookupFst (reindexRemove s ((removed ++ changed).dedup)).manifest f
            = none := by
          rw [reindexRemove_manifest_lookup,
            if_pos (List.elem_eq_true_of_mem ((hmemRem f).mpr (Or.inl hrem)))]
        have : lookupFst s'.manifest f = lookupFst s2.manifest f := by
          have hiso := hs'hash f
          cases hlk : lookupFst s2.manifest f with
          | none =>
            cases hlk' : lookupFst s'.manifest f with
            | none => rfl
            | some e =>
              rw [hlk, hlk'] at hiso
              cases hiso
          | some e =>
            rw [h2, h1] at hlk
            cases hlk
        rw [this, h2, h1]
      · intro hf hrem
        have hnotadd : f ∉ insSort strLe ((added ++ changed).dedup) := by
          rw [hmemAdd f]
          exact hf
        have hnotchg : f ∉ changed := fun hc => hf (Or.inr hc)
        have hnotrem2 : f ∉ (removed ++ changed).dedup := by
          rw [hmemRem f]
          rintro (hr | hc)
          · exact hrem hr
          · exact hnotchg hc
        rw [hs'hash, hother f hnotadd, reindexRemove_manifest_lookup]
        rw [if_neg (fun hc => hnotrem2 (List.mem_of_elem_eq_true hc))]
    -- the three key facts
    have hK1 : ∀ f, f ∈ keysOf (computeFileHashes hashFn d) →
        f ∈ keysOf s'.manifest := by
      intro f hf
      by_cases hfac : f ∈ added ∨ f ∈ changed
      · have := (hfinal f).1 hfac
        rcases (lookupFst_keys _ f).mp hf with ⟨v, hv⟩
        rw [hv] at this
        cases hlk : lookupFst s'.manifest f with
        | none => rw [hlk] at this; cases this
        | some e => exact (lookupFst_keys _ f).mpr ⟨e, hlk⟩
      · by_cases hrem : f ∈ removed
        · exfalso
          have : f ∈ (needsReindex hashFn s d).2.2.2 := by rw [hremc]; exact hrem
          exact ((mem_diff_removed hashFn s d f).mp this).2 hf
        · have hfold : f ∈ keysOf s.manifest := by
            by_contra hnold
            have : f ∈ (needsReindex hashFn s d).2.1 :=
              (mem_diff_added hashFn s d f).mpr ⟨hf, hnold⟩
            rw [haddc] at this
            exact hfac (Or.inl this)
          have := (hfinal f).2.2 hfac hrem
          rcases (lookupFst_keys _ f).mp hfold with ⟨v, hv⟩
          rw [hv] at this
          cases hlk : lookupFst s'.manifest f with
          | none => rw [hlk] at this; cases this
          | some e => exact (lookupFst_keys _ f).mpr ⟨e, hlk⟩
    have hK2 : ∀ f, f ∈ keysOf s'.manifest →
        f ∈ keysOf (computeFileHashes hashFn d) := by
      intro f hf
      rcases (lookupFst_keys _ f).mp hf with ⟨e, he⟩
      by_cases hfac : f ∈ added ∨ f ∈ changed
      · rcases hfac with hfa | hfc
        · have : f ∈ (needsReindex hashFn s d).2.1 := by rw [haddc]; exact hfa
          exact ((mem_diff_added hashFn s d f).mp this).1
        · have : f ∈ (needsReindex hashFn s d).2.2.1 := by rw [hchgc]; exact hfc
          exact ((mem_diff_changed hashFn s d f).mp this).2.1
      · by_cases hrem : f ∈ removed
        · exfalso
          rw [(hfinal f).2.1 hfac hrem] at he
          cases he
        · have hsome := (hfinal f).2.2 hfac hrem
          rw [he] at hsome
          have hfold : f ∈ keysOf s.manifest := by
            cases hlk : lookupFst s.manifest f with
            | none => rw [hlk] at hsome; cases hsome
            | some e' => exact (lookupFst_keys _ f).mpr ⟨e', hlk⟩
          by_contra hncur
          have : f ∈ (needsReindex hashFn s d).2.2.2 :=
            (mem_diff_removed hashFn s d f).mpr ⟨hfold, hncur⟩
          rw [hremc] at this
          exact hrem this
    have hK3 : ∀ f, f ∈ keysOf (computeFileHashes hashFn d) →
        lookupFst (computeFileHashes hashFn d) f =
          (lookupFst s'.manifest f).map ManEntry.hash := by
      intro f hf
      by_cases hfac : f ∈ added ∨ f ∈ changed
      · exact ((hfinal f).1 hfac).symm
      · by_cases hrem : f ∈ removed
        · exfalso
          have : f ∈ (needsReindex hashFn s d).2.2.2 := by rw [hremc]; exact hrem
          exact ((mem_diff_removed hashFn s d f).mp this).2 hf
        · have hfold : f ∈ keysOf s.manifest := by
            by_contra hnold
            have : f ∈ (needsReindex hashFn s d).2.1 :=
              (mem_diff_added hashFn s d f).mpr ⟨hf, hnold⟩
            rw [haddc] at this
            exact hfac (Or.inl this)
          have hnotchg : f ∉ changed := fun hc => hfac (Or.inr hc)
          have hmatch : lookupFst (computeFileHashes hashFn d) f =
              (lookupFst s.manifest f).map ManEntry.hash := by
            by_contra hne
            have : f ∈ (needsReindex hashFn s d).2.2.1 :=
              (mem_diff_changed hashFn s d f).mpr ⟨hfold, hf, hne⟩
            rw [hchgc] at this
            exact hnotchg this
          rw [hmatch, ((hfinal f).2.2 hfac hrem).symm]
    -- the second call's diff is empty
    have hempty_added : (needsReindex hashFn s' d).2.1 = [] := by
      rw [List.eq_nil_iff_forall_not_mem]
      intro f hf
      rcases (mem_diff_added hashFn s' d f).mp hf with ⟨hcur, hnman⟩
      exact hnman (hK1 f hcur)
    have hempty_removed : (needsReindex hashFn s' d).2.2.2 = [] := by
      rw [List.eq_nil_iff_forall_not_mem]
      intro f hf
      rcases (mem_diff_removed hashFn s' d f).mp hf with ⟨hman, hncur⟩
      exact hncur (hK2 f hman)
    have hempty_changed : (needsReindex hashFn s' d).2.2.1 = [] := by
      rw [List.eq_nil_iff_forall_not_mem]
      intro f hf
      rcases (mem_diff_changed hashFn s' d f).mp hf with ⟨hman, hcur, hne⟩
      exact hne (hK3 f hcur)
    have hflag : (needsReindex hashFn s' d).1 = false := by
      have hdef : (needsReindex hashFn s' d).1 =
          !((needsReindex hashFn s' d).2.1.isEmpty &&
            (needsReindex hashFn s' d).2.2.2.isEmpty &&
            (needsReindex hashFn s' d).2.2.1.isEmpty) := rfl
      rw [hdef, hempty_added, hempty_removed, hempty_changed]
      rfl
    unfold reindex
    rcases hneq' : needsReindex hashFn s' d with ⟨needs', a', c', r'⟩
    have : needs' = false := by rw [hneq'] at hflag; exact hflag
    subst this
    simp only [Bool.not_false, if_pos]
    rfl

/-- Witness for C7: reindexing an empty index against a one-file directory
mutates it, and the resulting state is a fixed point of a second call. -/
theorem reindex_idempotent_witness :
    reindex (fun t : String => t) (fun b => b) (fun b => b) (fun b => b)
        ({ chunks := [⟨"x. y y.", "a.pdf", 0⟩],
           embeddings := ["x. y y."],
           manifest := [("a.pdf", ⟨"x. y y.", 0, 1⟩)],
           bm25 := bm25FitSt bm25Init ["x. y y."] } : IndexState String)
        [⟨"a.pdf", "x. y y."⟩] =
      Except.ok
        ({ chunks := [⟨"x. y y.", "a.pdf", 0⟩],
           embeddings := ["x. y y."],
           manifest := [("a.pdf", ⟨"x. y y.", 0, 1⟩)],
           bm25 := bm25FitSt bm25Init ["x. y y."] } : IndexState String) :=
  reindex_idempotent (fun t : String => t) (fun b => b) (fun b => b) (fun b => b)
    emptyIndex [⟨"a.pdf", "x. y y."⟩]
    ({ chunks := [⟨"x. y y.", "a.pdf", 0⟩],
       embeddings := ["x. y y."],
       manifest := [("a.pdf", ⟨"x. y y.", 0, 1⟩)],
       bm25 := bm25FitSt bm25Init ["x. y y."] } : IndexState String)
    rfl

/-! ## Claim C1 — the central alignment invariant -/

theorem bm25FitSt_fittedOn (st : BM25State) (texts : List String) :
    bm25FittedOn (bm25FitSt st texts) texts :=
  ⟨rfl, rfl, rfl⟩

theorem map_filter_zip_map {α β : Type} (g : α → β) (pred : α → Bool) (l : List α) :
    ((l.zip (l.map g)).filter fun q => pred q.1).map (·.2) = (l.filter pred).map g := by
  induction l with
  | nil => rfl
  | cons a rest ih =>
    rw [List.map_cons, List.zip_cons_cons, List.filter_cons, List.filter_cons]
    by_cases hp : pred a
    · simp only [hp, if_pos, List.map_cons, ih]
    · simp only [hp, Bool.false_eq_true, if_neg, not_false_iff, ih]

theorem mapIdx_chunk_text_map {β : Type} (g : String → β) (f : String)
    (l : List String) :
    ((l.mapIdx fun i c => (⟨c, f, i⟩ : Chunk)).map fun ch => g ch.text) = l.map g := by
  rw [List.mapIdx_eq_enum_map, List.map_map]
  rw [show ((fun ch : Chunk => g ch.text) ∘
      Function.uncurry fun i c => (⟨c, f, i⟩ : Chunk)) = fun p : Nat × String => g p.2
    from rfl]
  rw [show (fun p : Nat × String => g p.2) = g ∘ Prod.snd from rfl, ← List.map_map,
    List.enum_map_snd]

/-- C1: after every completed mutating public operation of the index store
— `build`, `reindex`, and `load` of a saved aligned state — the chunk
list, the embedding matrix and the BM25 model describe the same chunk set
in the same order: one embedding row per chunk with row `i` the embedding
of chunk `i`, and the BM25 statistics fitted over the chunk texts in
chunk-list order. -/
theorem hybrid_index_alignment {E : Type} (embed : String → E)
    (hashFn parsePdf parseDocx : String → String) :
    (∀ (s s' : IndexState E) (d : List SrcFile),
        build embed hashFn parsePdf parseDocx s d = Except.ok s' →
        indexAligned embed s') ∧
      (∀ (s s' : IndexState E) (d : List SrcFile), indexAligned embed s →
        reindex embed hashFn parsePdf parseDocx s d = Except.ok s' →
        indexAligned embed s') ∧
      (∀ s : IndexState E, indexAligned embed s →
        indexAligned embed (loadIndex (saveIndex s))) := by
  refine ⟨?_, ?_, ?_⟩
  · intro s s' d h
    unfold build at h
    rcases except_bind_ok _ _ _ h with ⟨docs, _, hpure⟩
    simp only [] at hpure
    rcases hfold : docs.foldl (buildStep hashFn d) ([], []) with ⟨C, M⟩
    rw [hfold] at hpure
    have hs' : IndexState.mk C ((C.map (·.text)).map embed) M
        (bm25FitSt s.bm25 (C.map (·.text))) = s' := Except.ok.inj hpure
    rw [← hs']
    refine ⟨?_, bm25FitSt_fittedOn _ _⟩
    simp only [List.map_map]
    rfl
  · intro s s' d haligned h
    unfold reindex at h
    rcases hneq : needsReindex hashFn s d with ⟨needs, added, changed, removed⟩
    rw [hneq] at h
    simp only [] at h
    cases needs with
    | false =>
      simp only [Bool.not_false, if_pos] at h
      have h' : Except.ok s = Except.ok s' := h
      cases h'
      exact haligned
    | true =>
      simp only [Bool.not_true, Bool.false_eq_true, if_neg, not_false_iff] at h
      rcases except_bind_ok _ _ _ h with ⟨s2, hadd, hpure⟩
      have hs' : ({ s2 with
          bm25 := bm25FitSt s2.bm25 (s2.chunks.map (·.text)),
          manifest := rebuildManifestRanges s2.chunks s2.manifest } : IndexState E)
            = s' := Except.ok.inj hpure
      rcases haligned with ⟨hemb, _⟩
      have hlen : s.chunks.length = s.embeddings.length := by
        rw [hemb, List.length_map]
      have h1emb : (reindexRemove s ((removed ++ changed).dedup)).embeddings =
          (reindexRemove s ((removed ++ changed).dedup)).chunks.map
            (fun c => embed c.text) := by
        rw [reindexRemove_embeddings s _ hlen, reindexRemove_chunks, hemb]
        exact map_filter_zip_map (fun c => embed c.text)
          (fun c => !(((removed ++ changed).dedup).contains c.filename)) s.chunks
      have hndAdd : (insSort strLe ((added ++ changed).dedup)).Nodup :=
        insSort_nodup _ _ (List.nodup_dedup _)
      rcases reindexAdd_spec embed hashFn parsePdf parseDocx
        (reindexRemove s ((removed ++ changed).dedup)) d
        (insSort strLe ((added ++ changed).dedup)) hndAdd s2 hadd with
        ⟨blocks, _, _, hchunks, hembs, _, _, _⟩
      have h2emb : s2.embeddings = s2.chunks.map (fun c => embed c.text) := by
        rw [hchunks, hembs, h1emb, List.map_append]
        congr 1
        rw [List.map_flatMap, List.map_flatMap]
        refine List.flatMap_congr ?_
        intro b _
        exact (mapIdx_chunk_text_map embed b.1 b.2).symm
      rw [← hs']
      exact ⟨h2emb, bm25FitSt_fittedOn _ _⟩
  · intro s haligned
    rcases haligned with ⟨hemb, _⟩
    unfold loadIndex saveIndex
    by_cases hempty : s.chunks.isEmpty
    · rw [if_pos hempty]
      refine ⟨hemb, ?_⟩
      rw [List.isEmpty_iff.mp hempty]
      exact ⟨rfl, rfl, rfl⟩
    · rw [if_neg hempty]
      exact ⟨hemb, bm25FitSt_fittedOn _ _⟩

/-- Witness for C1: the state built from a concrete one-file directory is
aligned, and loading its saved artifacts preserves alignment. -/
theorem hybrid_index_alignment_witness :
    indexAligned (fun t : String => t)
        ({ chunks := [⟨"x. y y.", "a.pdf", 0⟩],
           embeddings := ["x. y y."],
           manifest := [("a.pdf", ⟨"x. y y.", 0, 1⟩)],
           bm25 := bm25FitSt bm25Init ["x. y y."] } : IndexState String) ∧
      indexAligned (fun t : String => t)
        (loadIndex (saveIndex
          ({ chunks := [⟨"x. y y.", "a.pdf", 0⟩],
             embeddings := ["x. y y."],
             manifest := [("a.pdf", ⟨"x. y y.", 0, 1⟩)],
             bm25 := bm25FitSt bm25Init ["x. y y."] } : IndexState String))) :=
  ⟨(hybrid_index_alignment (fun t : String => t) (fun b => b) (fun b => b)
      (fun b => b)).1 emptyIndex _ [⟨"a.pdf", "x. y y."⟩] rfl,
   (hybrid_index_alignment (fun t : String => t) (fun b => b) (fun b => b)
      (fun b => b)).2.2 _
     ((hybrid_index_alignment (fun t : String => t) (fun b => b) (fun b => b)
        (fun b => b)).1 emptyIndex _ [⟨"a.pdf", "x. y y."⟩] rfl)⟩

/-! ## Claim C3 — the reindex postcondition -/

/-- C3, counterexample to the claim's first conjunct: with `a.pdf`'s
content changed on disk, `needs_reindex` classifies it as changed, yet
after `reindex` completes a chunk with filename `a.pdf` remains — changed
files are removed and then re-added from their current content, so "no
chunk with that filename remains" is wrong for changed files. -/
theorem reindex_postcondition_refuted :
    (needsReindex (fun b : String => b)
        ({ chunks := [⟨"x. y y.", "a.pdf", 0⟩],
           embeddings := ["x. y y."],
           manifest := [("a.pdf", ⟨"x. y y.", 0, 1⟩)],
           bm25 := bm25FitSt bm25Init ["x. y y."] } : IndexState String)
        [⟨"a.pdf", "z."⟩]).2.2.1 = ["a.pdf"] ∧
      reindex (fun t : String => t) (fun b => b) (fun b => b) (fun b => b)
        ({ chunks := [⟨"x. y y.", "a.pdf", 0⟩],
           embeddings := ["x. y y."],
           manifest := [("a.pdf", ⟨"x. y y.", 0, 1⟩)],
           bm25 := bm25FitSt bm25Init ["x. y y."] } : IndexState String)
        [⟨"a.pdf", "z."⟩] =
        Except.ok
          ({ chunks := [⟨"z.", "a.pdf", 0⟩],
             embeddings := ["z."],
             manifest := [("a.pdf", ⟨"z.", 0, 1⟩)],
             bm25 := bm25FitSt (bm25FitSt bm25Init ["x. y y."]) ["z."] } :
            IndexState String) ∧
      (([⟨"z.", "a.pdf", 0⟩] : List Chunk).filter
        fun c => c.filename = "a.pdf") ≠ [] :=
  ⟨rfl, rfl, by decide⟩

/-- C3 (amended): for a well-formed index state (embedding rows aligned
with chunks, manifest keys distinct and covering every chunk's filename,
entries of chunk-less files empty-ranged, chunks grouped per filename, and
manifest ranges partitioning the chunk positions), after `reindex`
returns: no chunk of a removed file remains; a changed file's chunks are
freshly rebuilt as `chunk_text` of its current content (they do remain,
correcting the claim); the chunks of untouched files are preserved, in
order, paired with their original embedding rows; and the manifest
entries' `[chunk_start, chunk_end)` ranges cover every chunk position
exactly once. -/
theorem reindex_postcondition {E : Type} (embed : String → E)
    (hashFn parsePdf parseDocx : String → String) (s : IndexState E)
    (d : List SrcFile) (s' : IndexState E)
    (hlen : s.chunks.length = s.embeddings.length)
    (hkeys : (keysOf s.manifest).Nodup)
    (hcov : ∀ c ∈ s.chunks, c.filename ∈ keysOf s.manifest)
    (hempty : ∀ p ∈ s.manifest, (∀ c ∈ s.chunks, c.filename ≠ p.1) →
      p.2.chunk_start = p.2.chunk_end)
    (hgrp : ChunksGrouped s.chunks)
    (hpart0 : ∀ i < s.chunks.length,
      ((s.manifest.filter fun p =>
        decide (p.2.chunk_start ≤ i ∧ i < p.2.chunk_end)).length = 1))
    (h : reindex embed hashFn parsePdf parseDocx s d = Except.ok s') :
    (∀ f ∈ (needsReindex hashFn s d).2.2.2, ∀ c ∈ s'.chunks, c.filename ≠ f) ∧
      (∀ f ∈ (needsReindex hashFn s d).2.2.1, ∃ t,
        loadForReindex parsePdf parseDocx d f = Except.ok t ∧
          ((s'.chunks.filter fun c => c.filename = f).map (·.text)) = chunkText t) ∧
      (∃ rest, s'.chunks.zip s'.embeddings =
        ((s.chunks.zip s.embeddings).filter fun q =>
          !((((needsReindex hashFn s d).2.2.2 ++
              (needsReindex hashFn s d).2.2.1).dedup).contains q.1.filename)) ++
          rest) ∧
      (∀ i < s'.chunks.length,
        ((s'.manifest.filter fun p =>
          decide (p.2.chunk_start ≤ i ∧ i < p.2.chunk_end)).length = 1)) := by
  rcases hgrp with ⟨B, hBnd, hBuni, hBeq⟩
  unfold reindex at h
  rcases hneq : needsReindex hashFn s d with ⟨needs, added, changed, removed⟩
  rw [hneq] at h
  simp only [] at h
  cases needs with
  | false =>
    simp only [Bool.not_false, if_pos] at h
    have h' : Except.ok s = Except.ok s' := h
    cases h'
    have hproj : (!(added.isEmpty && removed.isEmpty && changed.isEmpty)) = false := by
      have h0 : (needsReindex hashFn s d).1 =
          !((needsReindex hashFn s d).2.1.isEmpty &&
            (needsReindex hashFn s d).2.2.2.isEmpty &&
            (needsReindex hashFn s d).2.2.1.isEmpty) := rfl
      rw [hneq] at h0
      exact h0.symm
    simp only [Bool.not_eq_false', Bool.and_eq_true, List.isEmpty_iff] at hproj
    rcases hproj with ⟨⟨hadd0, hrem0⟩, hchg0⟩
    refine ⟨?_, ?_, ?_, ?_⟩
    · intro f hf
      have hf' : f ∈ removed := hf
      rw [hrem0] at hf'
      cases hf'
    · intro f hf
      have hf' : f ∈ changed := hf
      rw [hchg0] at hf'
      cases hf'
    · refine ⟨[], ?_⟩
      rw [List.append_nil]
      have hfull : ((s.chunks.zip s.embeddings).filter fun q =>
          !(((removed ++ changed).dedup).contains q.1.filename)) =
            s.chunks.zip s.embeddings := by
        rw [hrem0, hchg0]
        simp
      exact hfull.symm
    · exact hpart0
  | true =>
    simp only [Bool.not_true, Bool.false_eq_true, if_neg, not_false_iff] at h
    rcases except_bind_ok _ _ _ h with ⟨s2, hadd, hpure⟩
    have hs' : ({ s2 with
        bm25 := bm25FitSt s2.bm25 (s2.chunks.map (·.text)),
        manifest := rebuildManifestRanges s2.chunks s2.manifest } : IndexState E)
          = s' := Except.ok.inj hpure
    have hs'chunks : s'.chunks = s2.chunks := by rw [← hs']
    have hs'emb : s'.embeddings = s2.embeddings := by rw [← hs']
    have hs'man : s'.manifest = rebuildManifestRanges s2.chunks s2.manifest := by
      rw [← hs']
    have hndAdd : (insSort strLe ((added ++ changed).dedup)).Nodup :=
      insSort_nodup _ _ (List.nodup_dedup _)
    rcases reindexAdd_spec embed hashFn parsePdf parseDocx
      (reindexRemove s ((removed ++ changed).dedup)) d
      (insSort strLe ((added ++ changed).dedup)) hndAdd s2 hadd with
      ⟨nb, hnames, hloadb, hchunks2, hemb2, _hbm, hother, hentries⟩
    have hr_chunks := reindexRemove_chunks s ((removed ++ changed).dedup)
    have hr_emb := reindexRemove_embeddings s ((removed ++ changed).dedup) hlen
    have hmemAdd : ∀ g, g ∈ insSort strLe ((added ++ changed).dedup) ↔
        (g ∈ added ∨ g ∈ changed) := by
      intro g
      rw [mem_insSort, List.mem_dedup, List.mem_append]
    have hsubAdd : ∀ g, (g ∈ added ∨ g ∈ changed) →
        g ∈ keysOf (computeFileHashes hashFn d) := by
      intro g hg
      rcases hg with hg | hg
      · have hg' : g ∈ (needsReindex hashFn s d).2.1 := by rw [hneq]; exact hg
        exact ((mem_diff_added hashFn s d g).mp hg').1
      · have hg' : g ∈ (needsReindex hashFn s d).2.2.1 := by rw [hneq]; exact hg
        exact ((mem_diff_changed hashFn s d g).mp hg').2.1
    have hA : ∀ f, f ∈ removed → ∀ c ∈ s2.chunks, c.filename ≠ f := by
      intro f hf c hc hcf
      rw [hchunks2, List.mem_append] at hc
      rcases hc with hc | hc
      · rw [hr_chunks, List.mem_filter] at hc
        rcases hc with ⟨_, hpred⟩
        rw [hcf] at hpred
        have hmem : f ∈ (removed ++ changed).dedup :=
          List.mem_dedup.mpr (List.mem_append.mpr (Or.inl hf))
        rw [(contains_iff_mem _ _).mpr hmem] at hpred
        simp at hpred
      · rcases List.mem_flatMap.mp hc with ⟨b, hb, hcb⟩
        have hcf' : c.filename = b.1 := mapIdx_filename b.1 b.2 c hcb
        have hbAdd : b.1 ∈ insSort strLe ((added ++ changed).dedup) := by
          rw [← hnames]
          exact List.mem_map_of_mem Prod.fst hb
        have hcur : b.1 ∈ keysOf (computeFileHashes hashFn d) :=
          hsubAdd b.1 ((hmemAdd b.1).mp hbAdd)
        have hf' : f ∈ (needsReindex hashFn s d).2.2.2 := by rw [hneq]; exact hf
        have hfcur := ((mem_diff_removed hashFn s d f).mp hf').2
        refine hfcur ?_
        rw [← hcf, hcf']
        exact hcur
    have hB : ∀ f, f ∈ changed → ∃ t,
        loadForReindex parsePdf parseDocx d f = Except.ok t ∧
          ((s2.chunks.filter fun c => c.filename = f).map (·.text)) = chunkText t := by
      intro f hf
      have hfAdd : f ∈ insSort strLe ((added ++ changed).dedup) :=
        (hmemAdd f).mpr (Or.inr hf)
      have hfnb : f ∈ nb.map Prod.fst := by rw [hnames]; exact hfAdd
      rcases List.mem_map.mp hfnb with ⟨b0, hb0, hb0f⟩
      rcases hloadb b0 hb0 with ⟨t, hload, hb0chunks⟩
      refine ⟨t, by rw [← hb0f]; exact hload, ?_⟩
      rw [hchunks2, List.filter_append]
      have hkeptnil : (((reindexRemove s ((removed ++ changed).dedup)).chunks.filter
          fun c => c.filename = f)) = [] := by
        refine List.filter_eq_nil_iff.mpr fun c hc => ?_
        rw [hr_chunks, List.mem_filter] at hc
        intro hdec
        have hcf : c.filename = f := of_decide_eq_true hdec
        rcases hc with ⟨_, hpred⟩
        have hmem : f ∈ (removed ++ changed).dedup :=
          List.mem_dedup.mpr (List.mem_append.mpr (Or.inr hf))
        rw [hcf, (contains_iff_mem _ _).mpr hmem] at hpred
        simp at hpred
      rw [hkeptnil, List.nil_append]
      have hnbnd : (nb.map Prod.fst).Nodup := by rw [hnames]; exact hndAdd
      rw [flatMap_filter_eq_block f nb hnbnd b0 hb0 hb0f, hb0chunks]
      have hid := mapIdx_chunk_text_map (fun x : String => x) f (chunkText t)
      simpa using hid
    have hz : (((s.chunks.zip s.embeddings).filter fun q =>
        !(((removed ++ changed).dedup).contains q.1.filename)).map (·.1)) =
        s.chunks.filter fun c => !(((removed ++ changed).dedup).contains c.filename) :=
      zip_filter_fst (fun c => !(((removed ++ changed).dedup).contains c.filename))
        s.chunks s.embeddings hlen
    have hlenkept : (reindexRemove s ((removed ++ changed).dedup)).chunks.length =
        (reindexRemove s ((removed ++ changed).dedup)).embeddings.length := by
      rw [hr_chunks, hr_emb, ← hz, List.length_map, List.length_map]
    have hC : s2.chunks.zip s2.embeddings =
        ((s.chunks.zip s.embeddings).filter fun q =>
          !(((removed ++ changed).dedup).contains q.1.filename)) ++
          ((nb.flatMap fun b => b.2.mapIdx fun i c => (⟨c, b.1, i⟩ : Chunk)).zip
            ((nb.flatMap fun b => b.2).map embed)) := by
      rw [hchunks2, hemb2, List.zip_append hlenkept]
      congr 1
      rw [hr_chunks, hr_emb, ← hz]
      exact zip_fst_snd _
    have hkept : (reindexRemove s ((removed ++ changed).dedup)).chunks =
        (B.filter fun b => !(((removed ++ changed).dedup).contains b.1)).flatMap
          Prod.snd := by
      rw [hr_chunks, hBeq]
      exact flatMap_filter_uniform
        (fun g => !(((removed ++ changed).dedup).contains g)) B
        (fun b hb => (hBuni b hb).2)
    have hs2blocks : s2.chunks =
        ((B.filter fun b => !(((removed ++ changed).dedup).contains b.1)) ++
          ((nb.map fun b => (b.1, b.2.mapIdx fun i c => (⟨c, b.1, i⟩ : Chunk))).filter
            fun b => !b.2.isEmpty)).flatMap Prod.snd := by
      rw [hchunks2, hkept, List.flatMap_append, flatMap_filter_nonempty, flatMap_map_snd]
    have hkeptnames :
        ((B.filter fun b => !(((removed ++ changed).dedup).contains b.1)).map
          Prod.fst).Nodup :=
      List.Pairwise.sublist (List.Sublist.map Prod.fst (List.filter_sublist B)) hBnd
    have hnbCnames :
        (((nb.map fun b => (b.1, b.2.mapIdx fun i c => (⟨c, b.1, i⟩ : Chunk))).filter
          fun b => !b.2.isEmpty).map Prod.fst).Nodup := by
      refine List.Pairwise.sublist
        (List.Sublist.map Prod.fst (List.filter_sublist _)) ?_
      rw [List.map_map]
      rw [show (Prod.fst ∘ fun b : String × List String =>
        (b.1, b.2.mapIdx fun i c => (⟨c, b.1, i⟩ : Chunk))) = Prod.fst from rfl]
      rw [hnames]
      exact hndAdd
    have hkeptsub : ∀ g ∈ (B.filter fun b =>
        !(((removed ++ changed).dedup).contains b.1)).map Prod.fst,
        g ∈ keysOf s.manifest ∧
          ((removed ++ changed).dedup).contains g = false := by
      intro g hg
      rcases List.mem_map.mp hg with ⟨b, hbmem, hbg⟩
      rcases List.mem_filter.mp hbmem with ⟨hbB, hbpred⟩
      rcases hBuni b hbB with ⟨hne, huni⟩
      rcases List.exists_cons_of_ne_nil hne with ⟨c, cs, hcs⟩
      have hcmem : c ∈ s.chunks := by
        rw [hBeq]
        exact List.mem_flatMap.mpr ⟨b, hbB, by
          rw [hcs]; exact List.mem_cons_self c cs⟩
      have hcf : c.filename = b.1 := huni c (by
        rw [hcs]; exact List.mem_cons_self c cs)
      refine ⟨?_, ?_⟩
      · rw [← hbg, ← hcf]
        exact hcov c hcmem
      · rw [← hbg]
        simpa using hbpred
    have hnewsub : ∀ g ∈ ((nb.map fun b =>
        (b.1, b.2.mapIdx fun i c => (⟨c, b.1, i⟩ : Chunk))).filter
          fun b => !b.2.isEmpty).map Prod.fst, g ∈ nb.map Prod.fst := by
      intro g hg
      rcases List.mem_map.mp hg with ⟨b, hbmem, hbg⟩
      rcases List.mem_filter.mp hbmem with ⟨hbnb, _⟩
      rcases List.mem_map.mp hbnb with ⟨b', hb', hbb'⟩
      rw [← hbg, ← hbb']
      exact List.mem_map_of_mem Prod.fst hb'
    have hdisj : ∀ g ∈ (B.filter fun b =>
        !(((removed ++ changed).dedup).contains b.1)).map Prod.fst,
        g ∉ ((nb.map fun b =>
          (b.1, b.2.mapIdx fun i c => (⟨c, b.1, i⟩ : Chunk))).filter
            fun b => !b.2.isEmpty).map Prod.fst := by
      intro g hg hgnew
      rcases hkeptsub g hg with ⟨hgman, hgnotrem⟩
      have hgadded : g ∈ added ∨ g ∈ changed :=
        (hmemAdd g).mp (hnames ▸ hnewsub g hgnew)
      rcases hgadded with hga | hgc
      · have hg' : g ∈ (needsReindex hashFn s d).2.1 := by rw [hneq]; exact hga
        exact ((mem_diff_added hashFn s d g).mp hg').2 hgman
      · have hmem : g ∈ (removed ++ changed).dedup :=
          List.mem_dedup.mpr (List.mem_append.mpr (Or.inr hgc))
        rw [(contains_iff_mem _ _).mpr hmem] at hgnotrem
        exact absurd hgnotrem (by decide)
    have hallnd : (((B.filter fun b =>
        !(((removed ++ changed).dedup).contains b.1)) ++
        ((nb.map fun b => (b.1, b.2.mapIdx fun i c => (⟨c, b.1, i⟩ : Chunk))).filter
          fun b => !b.2.isEmpty)).map Prod.fst).Nodup := by
      rw [List.map_append, List.nodup_append]
      exact ⟨hkeptnames, hnbCnames, fun a ha hb => hdisj a ha hb⟩
    have halluni : ∀ b ∈ (B.filter fun b =>
        !(((removed ++ changed).dedup).contains b.1)) ++
        ((nb.map fun b => (b.1, b.2.mapIdx fun i c => (⟨c, b.1, i⟩ : Chunk))).filter
          fun b => !b.2.isEmpty),
        b.2 ≠ [] ∧ ∀ c ∈ b.2, c.filename = b.1 := by
      intro b hb
      rcases List.mem_append.mp hb with hb | hb
      · exact hBuni b (List.mem_filter.mp hb).1
      · rcases List.mem_filter.mp hb with ⟨hbnb, hbne⟩
        rcases List.mem_map.mp hbnb with ⟨b', hb', hbb'⟩
        subst hbb'
        have hbne' : (!(b'.2.mapIdx fun i c => (⟨c, b'.1, i⟩ : Chunk)).isEmpty)
            = true := hbne
        refine ⟨fun he => ?_, fun c hc => mapIdx_filename b'.1 b'.2 c hc⟩
        have he' : (b'.2.mapIdx fun i c => (⟨c, b'.1, i⟩ : Chunk)) = [] := he
        rw [he'] at hbne'
        simp at hbne'
    have hranges : chunkRanges s2.chunks =
        blockIntervals ((B.filter fun b =>
          !(((removed ++ changed).dedup).contains b.1)) ++
          ((nb.map fun b => (b.1, b.2.mapIdx fun i c => (⟨c, b.1, i⟩ : Chunk))).filter
            fun b => !b.2.isEmpty)) 0 := by
      rw [hs2blocks]
      exact chunkRanges_grouped _ halluni hallnd
    have hnd1 : (keysOf (reindexRemove s
        ((removed ++ changed).dedup)).manifest).Nodup := by
      rw [reindexRemove_manifest]
      exact List.Pairwise.sublist
        (List.Sublist.map Prod.fst (List.filter_sublist _)) hkeys
    have hnd2 : (keysOf s2.manifest).Nodup :=
      reindexAdd_keys_nodup embed hashFn parsePdf parseDocx
        (reindexRemove s ((removed ++ changed).dedup)) d
        (insSort strLe ((added ++ changed).dedup)) s2 hadd hnd1
    have hndfinal : (keysOf (rebuildManifestRanges s2.chunks s2.manifest)).Nodup := by
      rw [keysOf_rebuildManifestRanges]
      exact hnd2
    have hD : ∀ i, i < s2.chunks.length →
        (((rebuildManifestRanges s2.chunks s2.manifest).filter fun p =>
          decide (p.2.chunk_start ≤ i ∧ i < p.2.chunk_end)).length = 1) := by
      intro i hi
      have hilen : i < 0 + ((((B.filter fun b =>
          !(((removed ++ changed).dedup).contains b.1)) ++
          ((nb.map fun b => (b.1, b.2.mapIdx fun i c => (⟨c, b.1, i⟩ : Chunk))).filter
            fun b => !b.2.isEmpty)).flatMap Prod.snd)).length := by
        rw [Nat.zero_add, ← hs2blocks]
        exact hi
      rcases blockIntervals_exact _ 0 i hallnd (Nat.zero_le i) hilen with
        ⟨f, se, hlkf, hle, hlt, huniq⟩
      rw [← hranges] at hlkf huniq
      have hfkeys : f ∈ keysOf (chunkRanges s2.chunks) :=
        (lookupFst_keys _ f).mpr ⟨se, hlkf⟩
      have hfblocks : f ∈ ((B.filter fun b =>
          !(((removed ++ changed).dedup).contains b.1)) ++
          ((nb.map fun b => (b.1, b.2.mapIdx fun i c => (⟨c, b.1, i⟩ : Chunk))).filter
            fun b => !b.2.isEmpty)).map Prod.fst := by
        rw [hranges, keysOf_blockIntervals] at hfkeys
        exact hfkeys
      have hfm2 : ∃ v, lookupFst s2.manifest f = some v := by
        have hfblocks' := hfblocks
        rw [List.map_append] at hfblocks'
        rcases List.mem_append.mp hfblocks' with hf | hf
        · rcases hkeptsub f hf with ⟨hfman, hfnc⟩
          have hfnotadd : f ∉ insSort strLe ((added ++ changed).dedup) := by
            intro hfa
            rcases (hmemAdd f).mp hfa with hfa' | hfc
            · have hf' : f ∈ (needsReindex hashFn s d).2.1 := by
                rw [hneq]; exact hfa'
              exact ((mem_diff_added hashFn s d f).mp hf').2 hfman
            · have hmem : f ∈ (removed ++ changed).dedup :=
                List.mem_dedup.mpr (List.mem_append.mpr (Or.inr hfc))
              rw [(contains_iff_mem _ _).mpr hmem] at hfnc
              exact absurd hfnc (by decide)
          rcases (lookupFst_keys s.manifest f).mp hfman with ⟨v, hv⟩
          have hlkp2 : lookupFst (reindexRemove s
              ((removed ++ changed).dedup)).manifest f = lookupFst s.manifest f := by
            rw [reindexRemove_manifest_lookup, hfnc]
            simp
          exact ⟨v, by rw [hother f hfnotadd, hlkp2, hv]⟩
        · rcases List.mem_map.mp (hnewsub f hf) with ⟨b0, hb0, hb0f⟩
          rcases hentries b0 hb0 with ⟨e, hlke, _, _⟩
          exact ⟨e, by rw [← hb0f]; exact hlke⟩
      refine filter_length_one_key (rebuildManifestRanges s2.chunks s2.manifest)
        hndfinal _ f ?_ ?_
      · rcases hfm2 with ⟨v, hv⟩
        rw [keysOf_rebuildManifestRanges]
        exact (lookupFst_keys _ f).mpr ⟨v, hv⟩
      · intro p hp
        unfold rebuildManifestRanges at hp
        rcases List.mem_map.mp hp with ⟨q, hq, hpq⟩
        simp only [] at hpq
        cases hlkq : lookupFst (chunkRanges s2.chunks) q.1 with
        | some se' =>
          have hpval : (q.1,
              { q.2 with
                chunk_start := se'.1
                chunk_end := se'.2 }) = p := by
            rw [hlkq] at hpq
            exact hpq
          rw [← hpval]
          show decide (se'.1 ≤ i ∧ i < se'.2) = true ↔ q.1 = f
          rw [decide_eq_true_eq]
          constructor
          · rintro ⟨h1, h2⟩
            exact huniq q.1 se' hlkq h1 h2
          · intro hqf
            rw [hqf] at hlkq
            rw [hlkq] at hlkf
            have hseq : se' = se := Option.some.inj hlkf
            rw [hseq]
            exact ⟨hle, hlt⟩
        | none =>
          have hpval : q = p := by
            rw [hlkq] at hpq
            exact hpq
          rw [← hpval]
          have hq1nb : q.1 ∉ ((B.filter fun b =>
              !(((removed ++ changed).dedup).contains b.1)) ++
              ((nb.map fun b => (b.1, b.2.mapIdx fun i c =>
                (⟨c, b.1, i⟩ : Chunk))).filter fun b => !b.2.isEmpty)).map
                  Prod.fst := by
            intro hmem
            have hk : q.1 ∈ keysOf (chunkRanges s2.chunks) := by
              rw [hranges, keysOf_blockIntervals]
              exact hmem
            rcases (lookupFst_keys _ q.1).mp hk with ⟨v, hv⟩
            rw [hlkq] at hv
            cases hv
          have hq1f : ¬ q.1 = f := fun he => hq1nb (he ▸ hfblocks)
          have hlkm2 : lookupFst s2.manifest q.1 = some q.2 :=
            lookupFst_of_mem_nodup _ _ _ hnd2 hq
          have hse : q.2.chunk_start = q.2.chunk_end := by
            by_cases hqadd : q.1 ∈ insSort strLe ((added ++ changed).dedup)
            · have hqnb' : q.1 ∈ nb.map Prod.fst := by
                rw [hnames]
                exact hqadd
              rcases List.mem_map.mp hqnb' with ⟨b0, hb0, hb0f⟩
              rcases hentries b0 hb0 with ⟨e, hlke, _, hee⟩
              have hqe : q.2 = e := by
                rw [hb0f] at hlke
                rw [hlkm2] at hlke
                exact Option.some.inj hlke
              have hb0e : b0.2 = [] := by
                by_contra hne0
                have hlen0 : (b0.2.mapIdx fun i c => (⟨c, b0.1, i⟩ : Chunk)) ≠ [] := by
                  intro he0
                  have hl0 := congrArg List.length he0
                  rw [List.length_mapIdx] at hl0
                  simp only [List.length_nil] at hl0
                  exact hne0 (List.length_eq_zero.mp hl0)
                refine hq1nb ?_
                rw [List.map_append]
                refine List.mem_append.mpr (Or.inr ?_)
                refine List.mem_map.mpr
                  ⟨(b0.1, b0.2.mapIdx fun i c => (⟨c, b0.1, i⟩ : Chunk)), ?_, hb0f⟩
                refine List.mem_filter.mpr ⟨List.mem_map.mpr ⟨b0, hb0, rfl⟩, ?_⟩
                show (!(b0.2.mapIdx fun i c => (⟨c, b0.1, i⟩ : Chunk)).isEmpty) = true
                simp [hlen0]
              rw [hqe]
              exact hee hb0e
            · have hlk1 : lookupFst (reindexRemove s
                  ((removed ++ changed).dedup)).manifest q.1 = some q.2 := by
                rw [← hother q.1 hqadd]
                exact hlkm2
              rw [reindexRemove_manifest_lookup] at hlk1
              by_cases hqr : ((removed ++ changed).dedup).contains q.1 = true
              · rw [if_pos hqr] at hlk1
                cases hlk1
              · rw [if_neg hqr] at hlk1
                have hqmem : (q.1, q.2) ∈ s.manifest := lookupFst_mem _ _ _ hlk1
                refine hempty (q.1, q.2) hqmem ?_
                intro c hc hcq
                have hcq' : c.filename = q.1 := hcq
                have hckept : c ∈ (reindexRemove s
                    ((removed ++ changed).dedup)).chunks := by
                  rw [hr_chunks]
                  refine List.mem_filter.mpr ⟨hc, ?_⟩
                  show (!((removed ++ changed).dedup).contains c.filename) = true
                  rw [hcq']
                  cases hXc : ((removed ++ changed).dedup).contains q.1 with
                  | true => exact absurd hXc hqr
                  | false => rfl
                have hckb : c ∈ (B.filter fun b =>
                    !(((removed ++ changed).dedup).contains b.1)).flatMap
                      Prod.snd := by
                  rw [← hkept]
                  exact hckept
                rcases List.mem_flatMap.mp hckb with ⟨kb, hkb, hckb2⟩
                have hcfk : c.filename = kb.1 :=
                  (hBuni kb (List.mem_filter.mp hkb).1).2 c hckb2
                refine hq1nb ?_
                rw [List.map_append]
                refine List.mem_append.mpr (Or.inl ?_)
                rw [← hcq', hcfk]
                exact List.mem_map_of_mem Prod.fst hkb
          show decide (q.2.chunk_start ≤ i ∧ i < q.2.chunk_end) = true ↔ q.1 = f
          rw [decide_eq_true_eq]
          constructor
          · rintro ⟨h1, h2⟩
            rw [hse] at h1
            omega
          · intro hq1
            exact absurd hq1 hq1f
    refine ⟨?_, ?_, ?_, ?_⟩
    · intro f hf c hc
      rw [hs'chunks] at hc
      exact hA f hf c hc
    · intro f hf
      rcases hB f hf with ⟨t, hload, hfil⟩
      refine ⟨t, hload, ?_⟩
      rw [hs'chunks]
      exact hfil
    · refine ⟨(nb.flatMap fun b => b.2.mapIdx fun i c => (⟨c, b.1, i⟩ : Chunk)).zip
        ((nb.flatMap fun b => b.2).map embed), ?_⟩
      rw [hs'chunks, hs'emb]
      exact hC
    · intro i hi
      rw [hs'chunks] at hi
      rw [hs'man]
      exact hD i hi

/-- Witness for the amended C3 at a one-file directory matching the index:
all well-formedness hypotheses hold and `reindex` completes; the manifest
entry covers chunk position 0 exactly once. -/
theorem reindex_postcondition_witness :
    (({ chunks := [⟨"x. y y.", "a.pdf", 0⟩],
        embeddings := ["x. y y."],
        manifest := [("a.pdf", ⟨"x. y y.", 0, 1⟩)],
        bm25 := bm25FitSt bm25Init ["x. y y."] } :
          IndexState String).manifest.filter fun p =>
      decide (p.2.chunk_start ≤ 0 ∧ 0 < p.2.chunk_end)).length = 1 :=
  (reindex_postcondition (fun t : String => t) (fun b => b) (fun b => b)
    (fun b => b)
    ({ chunks := [⟨"x. y y.", "a.pdf", 0⟩],
       embeddings := ["x. y y."],
       manifest := [("a.pdf", ⟨"x. y y.", 0, 1⟩)],
       bm25 := bm25FitSt bm25Init ["x. y y."] } : IndexState String)
    [⟨"a.pdf", "x. y y."⟩]
    ({ chunks := [⟨"x. y y.", "a.pdf", 0⟩],
       embeddings := ["x. y y."],
       manifest := [("a.pdf", ⟨"x. y y.", 0, 1⟩)],
       bm25 := bm25FitSt bm25Init ["x. y y."] } : IndexState String)
    (by decide)
    (by decide)
    (by decide)
    (by decide)
    ⟨[("a.pdf", [⟨"x. y y.", "a.pdf", 0⟩])], by decide, by decide, rfl⟩
    (by decide)
    rfl).2.2.2 0 (by decide)

end RagEngine
